import Mathlib

/-! Threshold hit detection on an interleaved two-channel sample stream (hit-proc).

Shallow embedding of `src/hit-proc.c` (function `process`, lines 165-238, and
`triangleIntegral`, lines 240-243) together with the properties established
about it.

Modelling conventions.

* C `int` and `long` values are `Int`; the two places where the source narrows
  a value are explicit: the store of a calibrated sample into `uint16_t sample`
  (reduction modulo `2 ^ 16`) and the store of the `long` sample counter into
  the `int` array `hit_start` (two's-complement reduction to 32 bits, `toInt32`).
  The `int` subtraction `hit_start[channel] - pre_samp` is reduced the same way.
  The `long` counter `sample_number` itself is left unbounded (it would need
  `2 ^ 63` sample pairs to wrap).
* `double` values are exact rationals (`ℚ`): every value the program forms is a
  sum of half-integers, which binary64 represents exactly below `2 ^ 52`.
* The input stream is the list of its bytes; `in.read` decodes two bytes into
  one `uint16_t` in little-endian order.
* `bCont` stays `1` (no interrupt is delivered while `process` runs).
* A `while` loop is run with fuel; `none` means the fuel ran out, which for
  `process` happens exactly when the loop of the source does not terminate.
-/

set_option maxRecDepth 100000

namespace HitProc

/-- Registry capacity, `#define MAX_HITS 100`. -/
def MAX_HITS : Nat := 100

/-- Number of channels, `#define CHANNELS 2`. -/
def CHANNELS : Nat := 2

/-- Record type `struct hit_t` (the field `end` is spelled `end_`). -/
structure hit_t where
  channel : Int
  max : Int
  start : Int
  end_ : Int
  integral : ℚ
deriving DecidableEq

/-- A C array of `CHANNELS = 2` elements, indexed by the channel number. -/
structure Arr2 (α : Type) where
  c0 : α
  c1 : α
deriving DecidableEq

/-- Array read `a[ch]` of a two-element array (`ch` is `i % 2` throughout). -/
def Arr2.get {α : Type} (a : Arr2 α) (ch : Nat) : α :=
  if ch = 0 then a.c0 else a.c1

/-- Array write `a[ch] = v` of a two-element array. -/
def Arr2.set {α : Type} (a : Arr2 α) (ch : Nat) (v : α) : Arr2 α :=
  if ch = 0 then { a with c0 := v } else { a with c1 := v }

/-- Conversion of an integer to a 32-bit two's-complement `int`. -/
def toInt32 (x : Int) : Int := (x + 2 ^ 31) % 2 ^ 32 - 2 ^ 31

/-- Source `triangleIntegral`: `fabs((double)(a) + 0.5 * (double)(b - a))`. -/
def triangleIntegral (a b : Int) : ℚ :=
  |(a : ℚ) + (1 / 2 : ℚ) * ((b - a : Int) : ℚ)|

/-- Arguments of `process` other than the stream. -/
structure Params where
  chan0_zero : Int
  chan1_zero : Int
  start_thresh : Int
  end_thresh : Int
  samples_to_read : Nat
  pre_samp : Int

/-- Local array `zero[CHANNELS] = {chan0_zero, chan1_zero}`. -/
def Params.zero (p : Params) : Arr2 Int := ⟨p.chan0_zero, p.chan1_zero⟩

/-- Lines 185-189: the raw `uint16_t` sample with the channel offset removed,
stored back into the `uint16_t` variable `sample`. -/
def calibrate (raw : Nat) (zero : Int) : Nat :=
  if (raw : Int) < zero then 0 else (((raw : Int) - zero) % 65536).toNat

/-- Local variables of `process`, the registry `hits` (the records in the order
of their stores, so that the record at position `j` is `hits[j]`), and the flag
`overrun`, which records that some store `hits[hit_number]` was executed with
`hit_number` outside `0 .. MAX_HITS - 1`. -/
structure State where
  sample_number : Int
  hit_max : Arr2 Int
  last_sample : Arr2 Int
  hit_start : Arr2 Int
  hit_started : Arr2 Int
  hit_integral : Arr2 ℚ
  hit_number : Nat
  hits : List hit_t
  overrun : Bool
deriving DecidableEq

/-- Initial values of the locals of `process` (lines 167-177). -/
def State.init : State :=
  { sample_number := 0
    hit_max := ⟨0, 0⟩
    last_sample := ⟨0, 0⟩
    hit_start := ⟨0, 0⟩
    hit_started := ⟨0, 0⟩
    hit_integral := ⟨0, 0⟩
    hit_number := 0
    hits := []
    overrun := false }

/-- Lines 231-233: `if(channel == 1) sample_number ++;`. -/
def bump (channel : Nat) (st : State) : State :=
  if channel = 1 then { st with sample_number := st.sample_number + 1 } else st

/-- Lines 195-202: the branch taken when no hit is open on the channel. -/
def openHit (p : Params) (channel : Nat) (sample : Int) (st : State) : State :=
  if sample > p.start_thresh then
    { st with
      hit_started := st.hit_started.set channel 1
      hit_start := st.hit_start.set channel (toInt32 st.sample_number)
      hit_max := st.hit_max.set channel 0
      hit_integral := st.hit_integral.set channel 0 }
  else st

/-- Lines 207-211: integral and maximum update while a hit is open. -/
def accumulate (channel : Nat) (sample : Int) (st : State) : State :=
  let st1 := { st with
    hit_integral := st.hit_integral.set channel
      (st.hit_integral.get channel +
        triangleIntegral (st.last_sample.get channel) sample) }
  if sample > st1.hit_max.get channel then
    { st1 with hit_max := st1.hit_max.set channel sample }
  else st1

/-- Lines 218-222: the record stored into `hits[hit_number]`. -/
def closeRecord (p : Params) (channel : Nat) (st : State) : hit_t :=
  { channel := channel
    max := st.hit_max.get channel
    start := toInt32 (st.hit_start.get channel - p.pre_samp)
    end_ := st.sample_number
    integral := st.hit_integral.get channel }

/-- Lines 216-223: clear the open flag, store the record, count it. -/
def closeHit (p : Params) (channel : Nat) (st : State) : State :=
  { st with
    hit_started := st.hit_started.set channel 0
    hits := st.hits ++ [closeRecord p channel st]
    overrun := st.overrun || decide (MAX_HITS ≤ st.hit_number)
    hit_number := st.hit_number + 1 }

/-- One iteration of the `for` loop (lines 184-233) at index `i` with
`array[i] = raw`.  The flag is `true` when the iteration leaves the loop through
`break` (line 227), in which case line 232 is not reached. -/
def body (p : Params) (st : State) (i : Nat) (raw : Nat) : State × Bool :=
  let channel := i % 2
  let sample : Int := calibrate raw (p.zero.get channel)
  let st1 := { st with last_sample := st.last_sample.set channel sample }
  if st1.hit_started.get channel = 0 then
    (bump channel (openHit p channel sample st1), false)
  else
    let st2 := accumulate channel sample st1
    if sample < p.end_thresh then
      let st3 := closeHit p channel st2
      if st3.hit_number > MAX_HITS then (st3, true)
      else (bump channel st3, false)
    else (bump channel st2, false)

/-- The `for` loop of lines 182-234 from index `i` on; the list holds
`array[i], array[i+1], ...` up to `array[samples_to_read - 1]`. -/
def forLoop (p : Params) : List Nat → Nat → State → State
  | [], _, st => st
  | raw :: rest, i, st =>
    match body p st i raw with
    | (st1, true) => st1
    | (st1, false) => forLoop p rest (i + 1) st1

/-- Reinterpretation of a byte buffer as `uint16_t` values (little endian). -/
def decode : List Nat → List Nat
  | lo :: hi :: rest => (lo % 256 + 256 * (hi % 256)) :: decode rest
  | _ => []

/-- Stream read `in.read((char*)array, samples_to_read * sizeof(uint16_t))`:
the decoded block and the rest of the stream, or `none` when fewer bytes than a
whole block are left (the read fails and the `while` loop ends). -/
def readBlock (n : Nat) (inp : List Nat) : Option (List Nat × List Nat) :=
  if 2 * n ≤ inp.length then
    some (decode (inp.take (2 * n)), inp.drop (2 * n))
  else none

/-- The `while` loop of lines 180-235, with fuel. -/
def whileLoop (p : Params) : Nat → State → List Nat → Option State
  | 0, _, _ => none
  | fuel + 1, st, inp =>
    match readBlock p.samples_to_read inp with
    | none => some st
    | some (array, rest) => whileLoop p fuel (forLoop p array 0 st) rest

/-- Source `process` on the byte stream `inp`.  The result is the final state;
the function of the source returns its `hit_number` and leaves its `hits` in
the global registry. -/
def process (inp : List Nat) (chan0_zero chan1_zero start_thresh end_thresh : Int)
    (samples_to_read : Nat) (pre_samp : Int) : Option State :=
  whileLoop ⟨chan0_zero, chan1_zero, start_thresh, end_thresh, samples_to_read, pre_samp⟩
    (inp.length + 1) State.init inp

/-- Byte encoding of a list of `uint16_t` samples (little endian). -/
def encode : List Nat → List Nat
  | [] => []
  | s :: rest => s % 256 :: s / 256 % 256 :: encode rest

/-- One execution of the loop body: the state before it, the index `i` and the
raw sample `array[i]`. -/
structure Visit where
  pre : State
  i : Nat
  raw : Nat
deriving DecidableEq

/-- Channel of the sample of a visit, `i % 2` (line 184). -/
def Visit.channel (v : Visit) : Nat := v.i % 2

/-- Calibrated sample of a visit, the value compared with the thresholds. -/
def Visit.sample (p : Params) (v : Visit) : Int :=
  calibrate v.raw (p.zero.get (v.i % 2))

/-- State after the loop body of a visit. -/
def Visit.post (p : Params) (v : Visit) : State := (body p v.pre v.i v.raw).1

/-- The executions of the loop body performed by `forLoop`, in order. -/
def forVisits (p : Params) : List Nat → Nat → State → List Visit
  | [], _, _ => []
  | raw :: rest, i, st =>
    ⟨st, i, raw⟩ ::
      (match body p st i raw with
       | (_, true) => []
       | (st1, false) => forVisits p rest (i + 1) st1)

/-- The executions of the loop body performed by `whileLoop`, in order. -/
def whileVisits (p : Params) : Nat → State → List Nat → List Visit
  | 0, _, _ => []
  | fuel + 1, st, inp =>
    match readBlock p.samples_to_read inp with
    | none => []
    | some (array, rest) =>
      forVisits p array 0 st ++ whileVisits p fuel (forLoop p array 0 st) rest

/-- The executions of the loop body performed by `process`, in order. -/
def visits (inp : List Nat) (chan0_zero chan1_zero start_thresh end_thresh : Int)
    (samples_to_read : Nat) (pre_samp : Int) : List Visit :=
  whileVisits ⟨chan0_zero, chan1_zero, start_thresh, end_thresh, samples_to_read, pre_samp⟩
    (inp.length + 1) State.init inp

/-- A list of visits is a run from `st`: the first visit starts in `st` and each
later visit starts in the state the loop body left. -/
def IsRun (p : Params) : State → List Visit → Prop
  | _, [] => True
  | st, v :: vs => v.pre = st ∧ IsRun p (v.post p) vs

/-- State at the end of a run. -/
def runEnd (p : Params) : State → List Visit → State
  | st, [] => st
  | _, v :: vs => runEnd p (v.post p) vs

/-- The closed sample ranges `[start, end]` of two records intersect. -/
def overlaps (a b : hit_t) : Prop := a.start ≤ b.end_ ∧ b.start ≤ a.end_

instance (a b : hit_t) : Decidable (overlaps a b) := by
  unfold overlaps; infer_instance

/-- Samples of `n` consecutive pulses on channel 0 (`2000` then `0`), with
channel 1 held at `0`. -/
def pulseTrain : Nat → List Nat
  | 0 => []
  | n + 1 => 2000 :: 0 :: 0 :: 0 :: pulseTrain n

/-- Ordering invariant of the registry, stated between two executions of the
loop body; `ph` is the parity of the index of the next sample, so that the next
sample of channel 0 has index `sample_number + ph` and the next sample of
channel 1 has index `sample_number`.  An open hit started at a non-negative
index before the next sample of its channel; every stored record ended before
the next sample of its channel and before the start of the hit now open on it;
and a record ends before the threshold crossing `start + pre` of every later
record of its channel. -/
structure Ordered (pre : Int) (ph : Nat) (st : State) : Prop where
  counter_nonneg : 0 ≤ st.sample_number
  open0 : st.hit_started.get 0 ≠ 0 →
    0 ≤ st.hit_start.get 0 ∧ st.hit_start.get 0 < st.sample_number + ph
  open1 : st.hit_started.get 1 ≠ 0 →
    0 ≤ st.hit_start.get 1 ∧ st.hit_start.get 1 < st.sample_number
  ends0 : ∀ r ∈ st.hits, r.channel = 0 →
    r.end_ < st.sample_number + ph ∧
      (st.hit_started.get 0 ≠ 0 → r.end_ < st.hit_start.get 0)
  ends1 : ∀ r ∈ st.hits, r.channel = 1 →
    r.end_ < st.sample_number ∧
      (st.hit_started.get 1 ≠ 0 → r.end_ < st.hit_start.get 1)
  sorted : st.hits.Pairwise (fun a b => a.channel = b.channel → a.end_ < b.start + pre)

/-- Two states agree on everything the machine of channel `c` reads or writes:
the sample counter, the four per-channel variables of `c` that survive from one
sample to the next, and the records of channel `c` in the registry. -/
structure SameChannel (c : Nat) (s t : State) : Prop where
  counter : s.sample_number = t.sample_number
  peak : s.hit_max.get c = t.hit_max.get c
  start : s.hit_start.get c = t.hit_start.get c
  started : s.hit_started.get c = t.hit_started.get c
  integral : s.hit_integral.get c = t.hit_integral.get c
  records : s.hits.filter (fun r => decide (r.channel = (c : Int)))
    = t.hits.filter (fun r => decide (r.channel = (c : Int)))

/-- Parameters used in the worked examples: offsets `0`, `start_thresh = 1000`,
`end_thresh = 500`, blocks of two samples, no pre-trigger. -/
def exParams : Params := ⟨0, 0, 1000, 500, 2, 0⟩

/-- Visits of `process` on the samples `2000, 0, 100, 0`: first the opening
sample of channel 0. -/
def exVisit0 : Visit := ⟨State.init, 0, 2000⟩

/-- Second visit of the example: the sample `0` of channel 1. -/
def exVisit1 : Visit := ⟨exVisit0.post exParams, 1, 0⟩

/-- Third visit of the example: the closing sample `100` of channel 0. -/
def exVisit2 : Visit := ⟨exVisit1.post exParams, 0, 100⟩

/-- Fourth visit of the example: the sample `0` of channel 1. -/
def exVisit3 : Visit := ⟨exVisit2.post exParams, 1, 0⟩

/-- Example stream: the samples `2000, 0, 100, 0`. -/
def exStream : List Nat := encode [2000, 0, 100, 0]

/-- Example stream with the samples of channel 0 of `exStream` and other samples
on channel 1: `2000, 7, 100, 3000`. -/
def exStream1 : List Nat := encode [2000, 7, 100, 3000]

/-- Final state of `process` on `exStream1` with the parameters `exParams`. -/
def exFinal1 : State :=
  forLoop exParams [100, 3000] 0 (forLoop exParams [2000, 7] 0 State.init)

/-- State of `process` after `k` sample pairs that opened no hit. -/
def idleAt (k : Int) : State := { State.init with sample_number := k }

/-- Chronological registry: no stored record ends after the current sample
counter, and the `end` fields do not decrease along the registry. -/
structure Chrono (st : State) : Prop where
  bounded : ∀ r ∈ st.hits, r.end_ ≤ st.sample_number
  sorted : st.hits.Pairwise (fun a b => a.end_ ≤ b.end_)

/-- Close event: the visit processes a sample below `end_thresh` while a hit is
open on the channel of the sample. -/
def closeEvent (p : Params) (v : Visit) : Bool :=
  decide (v.pre.hit_started.get (v.i % 2) ≠ 0) && decide (v.sample p < p.end_thresh)

/-- Example stream with a hit that is never closed: the samples
`2000, 0, 700, 0`. -/
def exStream2 : List Nat := encode [2000, 0, 700, 0]

/-- Third visit of `process` on `exStream2`: the sample `700` of channel 0. -/
def exVisit2b : Visit := ⟨exVisit1.post exParams, 0, 700⟩

/-- Fourth visit of `process` on `exStream2`: the sample `0` of channel 1. -/
def exVisit3b : Visit := ⟨exVisit2b.post exParams, 1, 0⟩

/-- Locals of `main` that the command line sets (lines 69-76). -/
structure Settings where
  chan0_zero : Int
  chan1_zero : Int
  start_thresh : Int
  end_thresh : Int
  pre_samp : Int
  samples_to_read : Int
  filename : String
deriving DecidableEq

/-- Initial values of the locals of `main` (lines 69-76). -/
def Settings.default : Settings :=
  { chan0_zero := 0
    chan1_zero := 0
    start_thresh := 1000
    end_thresh := 500
    pre_samp := 0
    samples_to_read := 1024
    filename := "-" }

/-- One option as `getopt` delivers it with the string `"p:i:0:1:s:e:b:"`.  A
numeric option carries the `int` that `strtod(optarg, NULL)` is converted to;
`other` is every other return value of `getopt` (unknown option, missing
argument). -/
inductive Opt where
  | p (v : Int)
  | i (name : String)
  | zero0 (v : Int)
  | zero1 (v : Int)
  | b (v : Int)
  | s (v : Int)
  | e (v : Int)
  | other
deriving DecidableEq

/-- One turn of the `switch` of lines 81-122; `none` when `usage` is called,
which exits. -/
def applyOpt (cfg : Settings) : Opt → Option Settings
  | Opt.p v => some { cfg with pre_samp := v }
  | Opt.i name => some { cfg with filename := name }
  | Opt.zero0 v => some { cfg with chan0_zero := v }
  | Opt.zero1 v => some { cfg with chan1_zero := v }
  | Opt.b v => if Int.tmod v 2 ≠ 0 then none else some { cfg with samples_to_read := v }
  | Opt.s v => if v = 0 then none else some { cfg with start_thresh := v }
  | Opt.e v => if v = 0 then none else some { cfg with end_thresh := v }
  | Opt.other => none

/-- The `while` loop over `getopt` of lines 79-123. -/
def parseOpts (cfg : Settings) : List Opt → Option Settings
  | [] => some cfg
  | o :: rest =>
    match applyOpt cfg o with
    | none => none
    | some cfg1 => parseOpts cfg1 rest

/-- What `main` does with a command line. -/
inductive Outcome where
  | usage
  | unableToOpen
  | processCalled (cfg : Settings)
deriving DecidableEq

/-- Source `main` up to the call of `process`: `opts` are the options in
command-line order, `operands` is `argc - optind` after them, and `fileOpens`
tells whether the file named by `-i` can be opened. -/
def main (opts : List Opt) (operands : Nat) (fileOpens : Bool) : Outcome :=
  match parseOpts Settings.default opts with
  | none => Outcome.usage
  | some cfg =>
    if operands ≠ 0 then Outcome.usage
    else if cfg.filename ≠ "-" then
      if fileOpens then Outcome.processCalled cfg else Outcome.unableToOpen
    else Outcome.processCalled cfg

/-- Channel-state invariant: for both channels the running maximum and the
running integral are not negative and the open flag is `0` or `1`, and every
stored record has a non-negative `max` and `integral`. -/
structure ChannelInv (st : State) : Prop where
  max0 : 0 ≤ st.hit_max.c0
  max1 : 0 ≤ st.hit_max.c1
  integral0 : 0 ≤ st.hit_integral.c0
  integral1 : 0 ≤ st.hit_integral.c1
  flag0 : st.hit_started.c0 = 0 ∨ st.hit_started.c0 = 1
  flag1 : st.hit_started.c1 = 0 ∨ st.hit_started.c1 = 1
  records : ∀ r ∈ st.hits, 0 ≤ r.max ∧ 0 ≤ r.integral

/-- Sum of the calibrated samples of channel `c` over a list of visits. -/
def sampleSum (p : Params) (c : Nat) : List Visit → Int
  | [] => 0
  | v :: vs => (if v.i % 2 = c then v.sample p else 0) + sampleSum p c vs

/-- Example stream with a hit of three samples on channel 0: the samples
`2000, 0, 700, 0, 100, 0`. -/
def exStream3 : List Nat := encode [2000, 0, 700, 0, 100, 0]

/-- Fifth visit of `process` on `exStream3`: the closing sample `100` of
channel 0. -/
def exVisit4b : Visit := ⟨exVisit3b.post exParams, 0, 100⟩

/-- Sixth visit of `process` on `exStream3`: the sample `0` of channel 1. -/
def exVisit5b : Visit := ⟨exVisit4b.post exParams, 1, 0⟩

/-- Samples of `n` consecutive pulses on channel 1 (`2000` then `0`), with
channel 0 held at `0`. -/
def pulseTrain1 : Nat → List Nat
  | 0 => []
  | n + 1 => 0 :: 2000 :: 0 :: 0 :: pulseTrain1 n

/-- Length invariant, stated between two executions of the loop body; `ph` is
the parity of the index of the next sample.  An open hit started at a
non-negative index before the next sample of its channel, and every stored
record ends after its threshold crossing: `start + pre + 1 ≤ end`. -/
structure PosLength (pre : Int) (ph : Nat) (st : State) : Prop where
  counter_nonneg : 0 ≤ st.sample_number
  open0 : st.hit_started.get 0 ≠ 0 →
    0 ≤ st.hit_start.get 0 ∧ st.hit_start.get 0 < st.sample_number + ph
  open1 : st.hit_started.get 1 ≠ 0 →
    0 ≤ st.hit_start.get 1 ∧ st.hit_start.get 1 < st.sample_number
  lengths : ∀ r ∈ st.hits, r.start + pre + 1 ≤ r.end_

/-! ## Properties -/

/-! ## Arrays of two elements -/

theorem Arr2.get_set_same {α : Type} (a : Arr2 α) (ch : Nat) (v : α) :
    (a.set ch v).get ch = v := by
  unfold Arr2.get Arr2.set
  split <;> simp_all

theorem Arr2.get_set_other {α : Type} (a : Arr2 α) (c d : Nat) (v : α)
    (hc : c < 2) (hd : d < 2) (h : d ≠ c) : (a.set c v).get d = a.get d := by
  unfold Arr2.get Arr2.set
  have h1 : c = 0 ∨ c = 1 := by omega
  have h2 : d = 0 ∨ d = 1 := by omega
  rcases h1 with rfl | rfl <;> rcases h2 with rfl | rfl <;> simp_all

theorem Arr2.get_zero {α : Type} (a : Arr2 α) : a.get 0 = a.c0 := rfl

theorem Arr2.get_one {α : Type} (a : Arr2 α) : a.get 1 = a.c1 := rfl

theorem Arr2.set_zero {α : Type} (a : Arr2 α) (v : α) : a.set 0 v = ⟨v, a.c1⟩ := rfl

theorem Arr2.set_one {α : Type} (a : Arr2 α) (v : α) : a.set 1 v = ⟨a.c0, v⟩ := rfl

theorem bump_zero (st : State) : bump 0 st = st := rfl

theorem bump_one (st : State) :
    bump 1 st = { st with sample_number := st.sample_number + 1 } := rfl

/-! ## One execution of the loop body -/

/-- While a hit is open, a sample of its channel below `end_thresh` stores
exactly one record, with that channel and the current sample counter as `end`. -/
theorem body_close (p : Params) (st : State) (i raw : Nat)
    (h0 : st.hit_started.get (i % 2) ≠ 0)
    (hs : (calibrate raw (p.zero.get (i % 2)) : Int) < p.end_thresh) :
    ∃ r : hit_t, r.channel = ((i % 2 : Nat) : Int) ∧ r.end_ = st.sample_number ∧
      (body p st i raw).1.hits = st.hits ++ [r] := by
  simp only [body, h0, if_false, hs, if_true, closeHit, closeRecord, accumulate, bump]
  split_ifs <;> exact ⟨_, rfl, rfl, rfl⟩

/-- The loop body stores at most one record; when it stores one, a hit was open
on the channel of the sample, the sample is below `end_thresh`, and the record
carries that channel and the current sample counter as its `end`. -/
theorem body_hits (p : Params) (st : State) (i raw : Nat) :
    (body p st i raw).1.hits = st.hits ∨
    (st.hit_started.get (i % 2) ≠ 0 ∧
      (calibrate raw (p.zero.get (i % 2)) : Int) < p.end_thresh ∧
      ∃ r : hit_t, r.channel = ((i % 2 : Nat) : Int) ∧ r.end_ = st.sample_number ∧
        (body p st i raw).1.hits = st.hits ++ [r]) := by
  by_cases h0 : st.hit_started.get (i % 2) = 0
  · left
    simp only [body, h0, if_true, bump, openHit]
    split_ifs <;> rfl
  · by_cases hc : (calibrate raw (p.zero.get (i % 2)) : Int) < p.end_thresh
    · right
      exact ⟨h0, hc, body_close p st i raw h0 hc⟩
    · left
      simp only [body, h0, if_false, hc, accumulate, bump]
      split_ifs <;> rfl

/-- The loop body leaves the open flag of the other channel alone. -/
theorem body_started_other (p : Params) (st : State) (i raw d : Nat)
    (hd : d < 2) (hne : d ≠ i % 2) :
    (body p st i raw).1.hit_started.get d = st.hit_started.get d := by
  have hc : i % 2 < 2 := Nat.mod_lt _ (by decide)
  simp only [body, bump, openHit, closeHit, accumulate]
  split_ifs <;> simp [Arr2.get_set_other _ _ _ _ hc hd hne]

/-- On an idle channel a sample above `start_thresh` opens a hit and stores
nothing. -/
theorem body_open (p : Params) (st : State) (i raw : Nat)
    (h0 : st.hit_started.get (i % 2) = 0)
    (hs : (calibrate raw (p.zero.get (i % 2)) : Int) > p.start_thresh) :
    (body p st i raw).1.hit_started.get (i % 2) = 1 ∧
    (body p st i raw).1.hits = st.hits := by
  simp only [body, h0, if_true, bump, openHit, hs]
  split_ifs <;> simp [Arr2.get_set_same]

/-- While a hit is open, a sample of its channel that is not below `end_thresh`
keeps it open. -/
theorem body_keep (p : Params) (st : State) (i raw : Nat)
    (h0 : st.hit_started.get (i % 2) ≠ 0)
    (hs : ¬ (calibrate raw (p.zero.get (i % 2)) : Int) < p.end_thresh) :
    (body p st i raw).1.hit_started.get (i % 2) = st.hit_started.get (i % 2) := by
  simp only [body, h0, if_false, hs, accumulate, bump]
  split_ifs <;> rfl

/-- Effect of a loop body that does not `break` on the sample counter, the open
flags, the hit starts and the registry: it opens a hit, or leaves the four
alone, or closes a hit and stores its record. -/
theorem body_view (p : Params) (st : State) (i raw : Nat)
    (hnb : (body p st i raw).2 = false) :
    (body p st i raw).1.sample_number
        = st.sample_number + (if i % 2 = 1 then 1 else 0) ∧
    ((st.hit_started.get (i % 2) = 0 ∧
        (body p st i raw).1.hit_started = st.hit_started.set (i % 2) 1 ∧
        (body p st i raw).1.hit_start
          = st.hit_start.set (i % 2) (toInt32 st.sample_number) ∧
        (body p st i raw).1.hits = st.hits) ∨
     ((body p st i raw).1.hit_started = st.hit_started ∧
        (body p st i raw).1.hit_start = st.hit_start ∧
        (body p st i raw).1.hits = st.hits) ∨
     (st.hit_started.get (i % 2) ≠ 0 ∧
        (body p st i raw).1.hit_started = st.hit_started.set (i % 2) 0 ∧
        (body p st i raw).1.hit_start = st.hit_start ∧
        ∃ r : hit_t, r.channel = ((i % 2 : Nat) : Int) ∧ r.end_ = st.sample_number ∧
          r.start = toInt32 (st.hit_start.get (i % 2) - p.pre_samp) ∧
          (body p st i raw).1.hits = st.hits ++ [r])) := by
  by_cases h0 : st.hit_started.get (i % 2) = 0
  · by_cases hs : (calibrate raw (p.zero.get (i % 2)) : Int) > p.start_thresh
    · simp only [body, h0, if_true, bump, openHit, hs]
      split_ifs <;> simp [h0]
    · simp only [body, h0, if_true, bump, openHit, hs, if_false]
      split_ifs <;> simp
  · by_cases hc : (calibrate raw (p.zero.get (i % 2)) : Int) < p.end_thresh
    · simp only [body, h0, if_false, hc, if_true, closeHit, closeRecord, accumulate, bump]
        at hnb ⊢
      split_ifs at hnb ⊢ <;> simp_all <;> exact ⟨_, rfl, rfl, rfl, rfl⟩
    · simp only [body, h0, if_false, hc, accumulate, bump]
      split_ifs <;> simp

theorem toInt32_of_range (x : Int) (h1 : -2147483648 ≤ x) (h2 : x < 2147483648) :
    toInt32 x = x := by
  unfold toInt32
  norm_num
  omega

/-- A loop body that does not `break` preserves the ordering invariant, as long
as the sample counter is below `2 ^ 31` and the pre-trigger count is between
`0` and `2 ^ 31`. -/
theorem body_ordered (p : Params) (hp0 : 0 ≤ p.pre_samp) (hp1 : p.pre_samp ≤ 2147483648)
    (st : State) (i raw : Nat) (hI : Ordered p.pre_samp (i % 2) st)
    (hlt : st.sample_number < 2147483648) (hnb : (body p st i raw).2 = false) :
    Ordered p.pre_samp ((i + 1) % 2) (body p st i raw).1 := by
  obtain ⟨hsn, hview⟩ := body_view p st i raw hnb
  obtain ⟨h1, h2, h3, h4, h5, h6⟩ := hI
  have ht : toInt32 st.sample_number = st.sample_number :=
    toInt32_of_range _ (by omega) hlt
  simp only [Arr2.get_zero, Arr2.get_one] at h2 h3 h4 h5
  rcases Nat.mod_two_eq_zero_or_one i with h | h
  · have h' : (i + 1) % 2 = 1 := by omega
    rw [h] at hsn hview h2 h4
    rw [h']
    simp only [Nat.cast_zero, add_zero, zero_ne_one, if_false, Arr2.get_zero,
      Arr2.set_zero] at hsn h2 h4 hview
    rcases hview with ⟨hidle, hs, hst, hh⟩ | ⟨hs, hst, hh⟩ |
      ⟨hact, hs, hst, r, hrc, hre, hrs, hh⟩
    · constructor
      all_goals simp only [hsn, hs, hst, hh, ht, Arr2.get_zero, Arr2.get_one, Nat.cast_one]
      · exact h1
      · intro _; omega
      · exact h3
      · intro r hr hc
        have := h4 r hr hc
        exact ⟨by omega, fun _ => this.1⟩
      · exact h5
      · exact h6
    · constructor
      all_goals simp only [hsn, hs, hst, hh, ht, Arr2.get_zero, Arr2.get_one, Nat.cast_one]
      · exact h1
      · intro hne; have := h2 hne; omega
      · exact h3
      · intro r hr hc
        have := h4 r hr hc
        exact ⟨by omega, this.2⟩
      · exact h5
      · exact h6
    · have hb := h2 hact
      have hrs1 : r.start + p.pre_samp = st.hit_start.c0 := by
        rw [hrs, toInt32_of_range _ (by omega) (by omega)]; ring
      constructor
      all_goals simp only [hsn, hs, hst, hh, ht, Arr2.get_zero, Arr2.get_one, Nat.cast_one]
      · exact h1
      · intro hne; exact absurd rfl hne
      · exact h3
      · intro q hq hc
        rcases List.mem_append.1 hq with hq | hq
        · have := h4 q hq hc
          exact ⟨by omega, fun hne => absurd rfl hne⟩
        · rw [List.mem_singleton] at hq
          subst hq
          exact ⟨by omega, fun hne => absurd rfl hne⟩
      · intro q hq hc
        rcases List.mem_append.1 hq with hq | hq
        · exact h5 q hq hc
        · rw [List.mem_singleton] at hq
          subst hq
          rw [hrc] at hc
          exact absurd hc (by decide)
      · rw [List.pairwise_append]
        refine ⟨h6, List.pairwise_singleton _ _, ?_⟩
        intro a ha b hb2 hab
        rw [List.mem_singleton] at hb2
        subst hb2
        have := (h4 a ha (by rw [hab, hrc])).2 hact
        omega
  · have h' : (i + 1) % 2 = 0 := by omega
    rw [h] at hsn hview h2 h4
    rw [h']
    simp only [Nat.cast_one, if_true, Arr2.get_one, Arr2.set_one] at hsn h2 h4 hview
    rcases hview with ⟨hidle, hs, hst, hh⟩ | ⟨hs, hst, hh⟩ |
      ⟨hact, hs, hst, r, hrc, hre, hrs, hh⟩
    · constructor
      all_goals simp only [hsn, hs, hst, hh, ht, Arr2.get_zero, Arr2.get_one, Nat.cast_zero,
        add_zero]
      · omega
      · exact h2
      · intro _; omega
      · exact h4
      · intro r hr hc
        have := h5 r hr hc
        exact ⟨by omega, fun _ => this.1⟩
      · exact h6
    · constructor
      all_goals simp only [hsn, hs, hst, hh, ht, Arr2.get_zero, Arr2.get_one, Nat.cast_zero,
        add_zero]
      · omega
      · exact h2
      · intro hne; have := h3 hne; omega
      · exact h4
      · intro r hr hc
        have := h5 r hr hc
        exact ⟨by omega, this.2⟩
      · exact h6
    · have hb := h3 hact
      have hrs1 : r.start + p.pre_samp = st.hit_start.c1 := by
        rw [hrs, toInt32_of_range _ (by omega) (by omega)]; ring
      constructor
      all_goals simp only [hsn, hs, hst, hh, ht, Arr2.get_zero, Arr2.get_one, Nat.cast_zero,
        add_zero]
      · omega
      · exact h2
      · intro hne; exact absurd rfl hne
      · intro q hq hc
        rcases List.mem_append.1 hq with hq | hq
        · exact h4 q hq hc
        · rw [List.mem_singleton] at hq
          subst hq
          rw [hrc] at hc
          exact absurd hc (by decide)
      · intro q hq hc
        rcases List.mem_append.1 hq with hq | hq
        · have := h5 q hq hc
          exact ⟨by omega, fun hne => absurd rfl hne⟩
        · rw [List.mem_singleton] at hq
          subst hq
          exact ⟨by omega, fun hne => absurd rfl hne⟩
      · rw [List.pairwise_append]
        refine ⟨h6, List.pairwise_singleton _ _, ?_⟩
        intro a ha b hb2 hab
        rw [List.mem_singleton] at hb2
        subst hb2
        have := (h5 a ha (by rw [hab, hrc])).2 hact
        omega

/-- The loop body never decreases the sample counter or the hit count, and it
leaves the loop through `break` only with a count above `MAX_HITS`. -/
theorem body_mono (p : Params) (st : State) (i raw : Nat) :
    st.sample_number ≤ (body p st i raw).1.sample_number ∧
    st.hit_number ≤ (body p st i raw).1.hit_number ∧
    ((body p st i raw).2 = true → MAX_HITS < (body p st i raw).1.hit_number) := by
  simp only [body, bump, openHit, closeHit, accumulate]
  split_ifs <;> simp_all

/-! ## Runs -/

theorem runEnd_append (p : Params) : ∀ (a b : List Visit) (st : State),
    runEnd p st (a ++ b) = runEnd p (runEnd p st a) b
  | [], _, _ => rfl
  | v :: a, b, _ => by
    simp only [List.cons_append, runEnd]
    exact runEnd_append p a b _

theorem isRun_append (p : Params) : ∀ (a b : List Visit) (st : State),
    IsRun p st (a ++ b) ↔ IsRun p st a ∧ IsRun p (runEnd p st a) b
  | [], _, _ => by simp [IsRun, runEnd]
  | v :: a, b, _ => by
    have ih := isRun_append p a b (v.post p)
    simp only [List.cons_append, IsRun, runEnd, and_assoc]
    exact and_congr_right (fun _ => ih)

/-- The visits of `forLoop` form a run from its initial state to its result. -/
theorem forVisits_run (p : Params) : ∀ (arr : List Nat) (i : Nat) (st : State),
    IsRun p st (forVisits p arr i st) ∧
      runEnd p st (forVisits p arr i st) = forLoop p arr i st
  | [], _, _ => by simp [forVisits, IsRun, runEnd, forLoop]
  | raw :: rest, i, st => by
    simp only [forVisits, forLoop, IsRun, runEnd, Visit.post, true_and]
    rcases hb : body p st i raw with ⟨st1, _ | _⟩
    · simpa using forVisits_run p rest (i + 1) st1
    · simp [IsRun, runEnd]

/-- The visits of `whileLoop` form a run from its initial state to its result. -/
theorem whileVisits_run (p : Params) : ∀ (fuel : Nat) (st : State) (inp : List Nat)
    (fin : State), whileLoop p fuel st inp = some fin →
    IsRun p st (whileVisits p fuel st inp) ∧
      runEnd p st (whileVisits p fuel st inp) = fin
  | 0, _, _, _ => by simp [whileLoop]
  | fuel + 1, st, inp, fin => by
    intro h
    simp only [whileLoop, whileVisits] at h ⊢
    rcases hr : readBlock p.samples_to_read inp with _ | ⟨arr, rest⟩
    · rw [hr] at h
      simp only [Option.some.injEq] at h
      simp [IsRun, runEnd, h]
    · rw [hr] at h
      simp only at h ⊢
      have h1 := forVisits_run p arr 0 st
      have h2 := whileVisits_run p fuel _ rest fin h
      rw [isRun_append, runEnd_append, h1.2]
      exact ⟨⟨h1.1, h2.1⟩, h2.2⟩

/-- The visits of `process` form a run from the initial state to its result. -/
theorem visits_run (inp : List Nat) (c0 c1 sth eth : Int) (B : Nat) (pre : Int)
    (fin : State) (h : process inp c0 c1 sth eth B pre = some fin) :
    IsRun ⟨c0, c1, sth, eth, B, pre⟩ State.init (visits inp c0 c1 sth eth B pre) ∧
      runEnd ⟨c0, c1, sth, eth, B, pre⟩ State.init (visits inp c0 c1 sth eth B pre) = fin :=
  whileVisits_run _ _ _ _ _ h

/-- Records are only ever appended: the registry at the end of a run extends
the registry at its beginning. -/
theorem run_hits_extend (p : Params) : ∀ (vs : List Visit) (st : State),
    IsRun p st vs → ∃ ext, (runEnd p st vs).hits = st.hits ++ ext
  | [], st, _ => ⟨[], by simp [runEnd]⟩
  | v :: vs, st, h => by
    obtain ⟨hpre, hrest⟩ := h
    obtain ⟨ext, hext⟩ := run_hits_extend p vs _ hrest
    simp only [runEnd]
    rcases body_hits p v.pre v.i v.raw with h1 | ⟨_, _, r, _, _, h1⟩
    · exact ⟨ext, by rw [hext, Visit.post, h1, hpre]⟩
    · exact ⟨r :: ext, by rw [hext, Visit.post, h1, hpre]; simp⟩

/-- While a hit is open on channel `c` and no sample of `c` falls below
`end_thresh`, the hit stays open and every record stored belongs to the other
channel. -/
theorem run_open_segment (p : Params) (c : Nat) (hc : c < 2) :
    ∀ (vs : List Visit) (st : State), IsRun p st vs →
    st.hit_started.get c ≠ 0 →
    (∀ v ∈ vs, v.i % 2 = c → ¬ v.sample p < p.end_thresh) →
    (runEnd p st vs).hit_started.get c ≠ 0 ∧
      ∃ ext, (runEnd p st vs).hits = st.hits ++ ext ∧
        ∀ r ∈ ext, r.channel ≠ (c : Int)
  | [], st, _, h0, _ => ⟨h0, [], by simp [runEnd]⟩
  | v :: vs, st, h, h0, hm => by
    obtain ⟨hpre, hrest⟩ := h
    subst hpre
    have hm1 : ∀ w ∈ vs, w.i % 2 = c → ¬ w.sample p < p.end_thresh :=
      fun w hw => hm w (List.mem_cons_of_mem _ hw)
    simp only [runEnd]
    by_cases hv : v.i % 2 = c
    · have hlow := hm v (List.mem_cons_self _ _) hv
      subst hv
      have hk := body_keep p v.pre v.i v.raw h0 hlow
      have h0p : (v.post p).hit_started.get (v.i % 2) ≠ 0 := by
        rw [Visit.post, hk]; exact h0
      obtain ⟨hfin, ext, hext, hch⟩ := run_open_segment p _ hc vs _ hrest h0p hm1
      refine ⟨hfin, ext, ?_, hch⟩
      rcases body_hits p v.pre v.i v.raw with h1 | ⟨_, hcl, _⟩
      · rw [hext, Visit.post, h1]
      · exact absurd hcl hlow
    · have hk := body_started_other p v.pre v.i v.raw c hc (fun h => hv h.symm)
      have h0p : (v.post p).hit_started.get c ≠ 0 := by
        rw [Visit.post, hk]; exact h0
      obtain ⟨hfin, ext, hext, hch⟩ := run_open_segment p c hc vs _ hrest h0p hm1
      rcases body_hits p v.pre v.i v.raw with h1 | ⟨_, _, r, hr, _, h1⟩
      · exact ⟨hfin, ext, by rw [hext, Visit.post, h1], hch⟩
      · refine ⟨hfin, r :: ext, by rw [hext, Visit.post, h1]; simp, ?_⟩
        intro r1 hr1
        rcases List.mem_cons.1 hr1 with rfl | hr1
        · rw [hr]
          intro habs
          exact hv (by exact_mod_cast habs)
        · exact hch r1 hr1

/-- Along a run the sample counter and the hit count never decrease. -/
theorem run_mono (p : Params) : ∀ (vs : List Visit) (st : State), IsRun p st vs →
    st.sample_number ≤ (runEnd p st vs).sample_number ∧
      st.hit_number ≤ (runEnd p st vs).hit_number
  | [], _, _ => by simp [runEnd]
  | v :: vs, st, h => by
    obtain ⟨hpre, hrest⟩ := h
    subst hpre
    have h1 := run_mono p vs _ hrest
    have h2 := body_mono p v.pre v.i v.raw
    simp only [runEnd, Visit.post] at h1 ⊢
    omega

theorem forLoop_mono (p : Params) (arr : List Nat) (i : Nat) (st : State) :
    st.sample_number ≤ (forLoop p arr i st).sample_number ∧
      st.hit_number ≤ (forLoop p arr i st).hit_number := by
  have h := forVisits_run p arr i st
  rw [← h.2]
  exact run_mono p _ st h.1

theorem whileLoop_mono (p : Params) (fuel : Nat) (st : State) (inp : List Nat)
    (fin : State) (h : whileLoop p fuel st inp = some fin) :
    st.sample_number ≤ fin.sample_number ∧ st.hit_number ≤ fin.hit_number := by
  have h1 := whileVisits_run p fuel st inp fin h
  rw [← h1.2]
  exact run_mono p _ st h1.1

/-! ## Blocks -/

theorem decode_length : ∀ l : List Nat, (decode l).length = l.length / 2
  | [] => by simp [decode]
  | [_] => by simp [decode]
  | _ :: _ :: rest => by
    simp only [decode, List.length_cons, decode_length rest]
    omega

/-- A block that was read holds exactly `n` samples. -/
theorem readBlock_length (n : Nat) (inp arr rest : List Nat)
    (h : readBlock n inp = some (arr, rest)) : arr.length = n := by
  unfold readBlock at h
  split_ifs at h with hle
  simp only [Option.some.injEq, Prod.mk.injEq] at h
  rw [← h.1, decode_length, List.length_take, Nat.min_eq_left hle]
  omega

/-- With a positive block size the `while` loop ends: fuel above the number of
bytes left is enough. -/
theorem whileLoop_terminates (p : Params) (hB : 0 < p.samples_to_read) :
    ∀ (fuel : Nat) (st : State) (inp : List Nat), inp.length < fuel →
    ∃ fin, whileLoop p fuel st inp = some fin
  | 0, _, _, h => absurd h (Nat.not_lt_zero _)
  | fuel + 1, st, inp, h => by
    simp only [whileLoop, readBlock]
    by_cases hle : 2 * p.samples_to_read ≤ inp.length
    · rw [if_pos hle]
      exact whileLoop_terminates p hB fuel _ _ (by rw [List.length_drop]; omega)
    · rw [if_neg hle]
      exact ⟨st, rfl⟩

/-- With a positive block size `process` returns. -/
theorem process_terminates (inp : List Nat) (c0 c1 sth eth : Int) (B : Nat) (pre : Int)
    (hB : 0 < B) : ∃ fin, process inp c0 c1 sth eth B pre = some fin :=
  whileLoop_terminates ⟨c0, c1, sth, eth, B, pre⟩ hB _ _ _ (Nat.lt_succ_self _)

/-- With block size `0` every read succeeds without consuming anything, so no
amount of fuel ends the `while` loop. -/
theorem whileLoop_zero_block (p : Params) (hB : p.samples_to_read = 0) :
    ∀ (fuel : Nat) (st : State) (inp : List Nat), whileLoop p fuel st inp = none
  | 0, _, _ => rfl
  | fuel + 1, st, inp => by
    simp only [whileLoop, readBlock, hB, Nat.mul_zero, Nat.zero_le, if_true, List.take_zero,
      List.drop_zero, decode, forLoop]
    exact whileLoop_zero_block p hB fuel st inp

/-! ## Ordering of the registry -/

/-- The `for` loop preserves the ordering invariant when it ends with the
sample counter below `2 ^ 31` and at most `MAX_HITS` records. -/
theorem forLoop_ordered (p : Params) (hp0 : 0 ≤ p.pre_samp)
    (hp1 : p.pre_samp ≤ 2147483648) : ∀ (arr : List Nat) (i : Nat) (st : State),
    Ordered p.pre_samp (i % 2) st →
    (forLoop p arr i st).sample_number < 2147483648 →
    (forLoop p arr i st).hit_number ≤ MAX_HITS →
    Ordered p.pre_samp ((i + arr.length) % 2) (forLoop p arr i st)
  | [], i, st => by
    intro hI _ _
    simpa [forLoop] using hI
  | raw :: rest, i, st => by
    intro hI hlt hcap
    have hbm := body_mono p st i raw
    simp only [forLoop] at hlt hcap ⊢
    rcases hb : body p st i raw with ⟨st1, _ | _⟩
    · rw [hb] at hlt hcap hbm
      simp only at hlt hcap hbm ⊢
      have hm := forLoop_mono p rest (i + 1) st1
      have hI1 := body_ordered p hp0 hp1 st i raw hI (by omega) (by rw [hb])
      rw [hb] at hI1
      have hfin := forLoop_ordered p hp0 hp1 rest (i + 1) st1 hI1 hlt hcap
      have hlen : i + (raw :: rest).length = i + 1 + rest.length := by
        simp only [List.length_cons]; omega
      rw [hlen]
      exact hfin
    · rw [hb] at hcap hbm
      simp only at hcap hbm
      have := hbm.2.2 trivial
      omega

/-- The `while` loop with an even block size preserves the ordering invariant
when it ends with the sample counter below `2 ^ 31` and at most `MAX_HITS`
records. -/
theorem whileLoop_ordered (p : Params) (hp0 : 0 ≤ p.pre_samp)
    (hp1 : p.pre_samp ≤ 2147483648) (hB : p.samples_to_read % 2 = 0) :
    ∀ (fuel : Nat) (st : State) (inp : List Nat) (fin : State),
    whileLoop p fuel st inp = some fin → Ordered p.pre_samp 0 st →
    fin.sample_number < 2147483648 → fin.hit_number ≤ MAX_HITS →
    Ordered p.pre_samp 0 fin
  | 0, _, _, _ => by simp [whileLoop]
  | fuel + 1, st, inp, fin => by
    intro h hI hlt hcap
    simp only [whileLoop] at h
    rcases hr : readBlock p.samples_to_read inp with _ | ⟨arr, rest⟩
    · rw [hr] at h
      simp only [Option.some.injEq] at h
      rw [← h]
      exact hI
    · rw [hr] at h
      simp only at h
      have hm := whileLoop_mono p fuel _ rest fin h
      have hlen := readBlock_length _ _ _ _ hr
      have h1 := forLoop_ordered p hp0 hp1 arr 0 st (by simpa using hI)
        (by omega) (by omega)
      have hph : (0 + arr.length) % 2 = 0 := by rw [hlen]; omega
      rw [hph] at h1
      exact whileLoop_ordered p hp0 hp1 hB fuel _ rest fin h h1 hlt hcap

theorem ordered_init (pre : Int) : Ordered pre 0 State.init := by
  constructor <;> simp [State.init, Arr2.get]

/-! ## Channel independence -/

/-- A loop body that does not `break` changes nothing that the other channel
`d` reads or writes, except that the sample counter advances after a sample of
channel 1. -/
theorem body_other (p : Params) (d : Nat) (hd : d < 2) (s : State) (i raw : Nat)
    (hne : i % 2 ≠ d) (hs : (body p s i raw).2 = false) :
    (body p s i raw).1.sample_number = s.sample_number + (if i % 2 = 1 then 1 else 0) ∧
    (body p s i raw).1.hit_max.get d = s.hit_max.get d ∧
    (body p s i raw).1.hit_start.get d = s.hit_start.get d ∧
    (body p s i raw).1.hit_started.get d = s.hit_started.get d ∧
    (body p s i raw).1.hit_integral.get d = s.hit_integral.get d ∧
    (body p s i raw).1.hits.filter (fun r => decide (r.channel = (d : Int)))
      = s.hits.filter (fun r => decide (r.channel = (d : Int))) := by
  have hd2 : d = 0 ∨ d = 1 := by omega
  rcases Nat.mod_two_eq_zero_or_one i with h | h <;> rcases hd2 with rfl | rfl
  · exact absurd h hne
  · simp only [body, h, bump_zero, bump_one, openHit, closeHit, closeRecord, accumulate, Arr2.get_zero,
      Arr2.set_zero, zero_ne_one, if_false] at hs ⊢
    split_ifs at hs ⊢ <;> first | contradiction | simp [Arr2.get_one, List.filter_append]
  · simp only [body, h, bump_zero, bump_one, openHit, closeHit, closeRecord, accumulate, Arr2.get_one,
      Arr2.set_one, if_true] at hs ⊢
    split_ifs at hs ⊢ <;> first | contradiction | simp [Arr2.get_zero, List.filter_append]
  · exact absurd h hne

/-- Two loop bodies at the same index that do not `break`, started in states
that agree on channel `c` and fed the same raw sample whenever the index
belongs to `c`, end in states that agree on channel `c`. -/
theorem body_same (p : Params) (c : Nat) (hc : c < 2) (s t : State) (i raw raw1 : Nat)
    (hst : SameChannel c s t) (hraw : i % 2 = c → raw = raw1)
    (hs : (body p s i raw).2 = false) (ht : (body p t i raw1).2 = false) :
    SameChannel c (body p s i raw).1 (body p t i raw1).1 := by
  obtain ⟨h1, h2, h3, h4, h5, h6⟩ := hst
  by_cases hic : i % 2 = c
  · have hr := hraw hic
    subst hr
    have hc2 : c = 0 ∨ c = 1 := by omega
    rcases hc2 with rfl | rfl
    · simp only [Arr2.get_zero] at h2 h3 h4 h5
      simp only [Nat.cast_zero] at h6
      simp only [body, hic, bump_zero, bump_one, openHit, closeHit, closeRecord, accumulate, Arr2.get_zero,
        Arr2.set_zero, h1, h2, h3, h4, h5] at hs ht ⊢
      split_ifs at hs ht ⊢ <;> first | contradiction | (constructor <;>
        simp [Arr2.get_zero, List.filter_append, h1, h2, h3, h4, h5, h6])
    · simp only [Arr2.get_one] at h2 h3 h4 h5
      simp only [Nat.cast_one] at h6
      simp only [body, hic, bump_zero, bump_one, openHit, closeHit, closeRecord, accumulate, Arr2.get_one,
        Arr2.set_one, h1, h2, h3, h4, h5] at hs ht ⊢
      split_ifs at hs ht ⊢ <;> first | contradiction | (constructor <;>
        simp [Arr2.get_one, List.filter_append, h1, h2, h3, h4, h5, h6])
  · obtain ⟨a1, a2, a3, a4, a5, a6⟩ := body_other p c hc s i raw hic hs
    obtain ⟨b1, b2, b3, b4, b5, b6⟩ := body_other p c hc t i raw1 hic ht
    exact ⟨by rw [a1, b1, h1], by rw [a2, b2, h2], by rw [a3, b3, h3], by rw [a4, b4, h4],
      by rw [a5, b5, h5], by rw [a6, b6, h6]⟩

theorem decode_take : ∀ (n : Nat) (l : List Nat),
    decode (l.take (2 * n)) = (decode l).take n
  | 0, l => by simp [decode]
  | n + 1, [] => by simp [decode]
  | n + 1, [_] => by
    have h : 2 * (n + 1) = (2 * n + 1) + 1 := by ring
    rw [h]
    simp [decode]
  | n + 1, lo :: hi :: rest => by
    have h : 2 * (n + 1) = (2 * n + 1) + 1 := by ring
    rw [h]
    simp only [List.take_succ_cons, decode]
    rw [decode_take n rest]

theorem decode_drop : ∀ (n : Nat) (l : List Nat),
    decode (l.drop (2 * n)) = (decode l).drop n
  | 0, l => by simp
  | n + 1, [] => by simp [decode]
  | n + 1, [_] => by
    have h : 2 * (n + 1) = (2 * n + 1) + 1 := by ring
    rw [h]
    simp [decode]
  | n + 1, lo :: hi :: rest => by
    have h : 2 * (n + 1) = (2 * n + 1) + 1 := by ring
    rw [h]
    simp only [List.drop_succ_cons, decode]
    rw [decode_drop n rest]

/-- Two `for` loops over blocks that agree on the samples of channel `c`,
started in states that agree on channel `c` and both ending with at most
`MAX_HITS` records, end in states that agree on channel `c`. -/
theorem forLoop_same (p : Params) (c : Nat) (hc : c < 2) :
    ∀ (arr arr1 : List Nat) (i : Nat) (s t : State),
    arr.length = arr1.length →
    (∀ j, (i + j) % 2 = c → arr[j]? = arr1[j]?) →
    SameChannel c s t →
    (forLoop p arr i s).hit_number ≤ MAX_HITS →
    (forLoop p arr1 i t).hit_number ≤ MAX_HITS →
    SameChannel c (forLoop p arr i s) (forLoop p arr1 i t)
  | [], [], _, _, _ => by
    intro _ _ hst _ _
    simpa [forLoop] using hst
  | [], _ :: _, _, _, _ => by
    intro hlen
    simp at hlen
  | _ :: _, [], _, _, _ => by
    intro hlen
    simp at hlen
  | x :: xs, y :: ys, i, s, t => by
    intro hlen hag hst hs ht
    have hms := body_mono p s i x
    have hmt := body_mono p t i y
    simp only [forLoop] at hs ht ⊢
    rcases hbs : body p s i x with ⟨s1, _ | _⟩
    · rcases hbt : body p t i y with ⟨t1, _ | _⟩
      · rw [hbs] at hs hms
        rw [hbt] at ht hmt
        simp only at hs ht ⊢
        have hxy : i % 2 = c → x = y := by
          intro hi
          have := hag 0 (by simpa using hi)
          simpa using this
        have h1 := body_same p c hc s t i x y hst hxy (by rw [hbs]) (by rw [hbt])
        rw [hbs, hbt] at h1
        refine forLoop_same p c hc xs ys (i + 1) s1 t1 (by simpa using hlen) ?_ h1 hs ht
        intro j hj
        have := hag (j + 1) (by rw [← hj]; congr 1; omega)
        simpa using this
      · rw [hbt] at ht hmt
        simp only at ht hmt
        have := hmt.2.2 trivial
        omega
    · rw [hbs] at hs hms
      simp only at hs hms
      have := hms.2.2 trivial
      omega

/-- Two `while` loops with an even block size over streams of the same length
that agree on the samples of channel `c`, started in states that agree on
channel `c` and both ending with at most `MAX_HITS` records, end in states that
agree on channel `c`. -/
theorem whileLoop_same (p : Params) (c : Nat) (hc : c < 2)
    (hB : p.samples_to_read % 2 = 0) :
    ∀ (fuel : Nat) (s t : State) (inp inp1 : List Nat) (fs ft : State),
    inp.length = inp1.length →
    (∀ n, n % 2 = c → (decode inp)[n]? = (decode inp1)[n]?) →
    SameChannel c s t →
    whileLoop p fuel s inp = some fs → whileLoop p fuel t inp1 = some ft →
    fs.hit_number ≤ MAX_HITS → ft.hit_number ≤ MAX_HITS →
    SameChannel c fs ft
  | 0, _, _, _, _, _, _ => by simp [whileLoop]
  | fuel + 1, s, t, inp, inp1, fs, ft => by
    intro hlen hag hst hs ht hcs hct
    simp only [whileLoop, readBlock] at hs ht
    rw [← hlen] at ht
    by_cases hle : 2 * p.samples_to_read ≤ inp.length
    · rw [if_pos hle] at hs ht
      simp only at hs ht
      have hms := whileLoop_mono p fuel _ _ fs hs
      have hmt := whileLoop_mono p fuel _ _ ft ht
      have hl1 : (decode (List.take (2 * p.samples_to_read) inp)).length
          = (decode (List.take (2 * p.samples_to_read) inp1)).length := by
        rw [decode_length, decode_length, List.length_take, List.length_take, hlen]
      have h1 := forLoop_same p c hc _ _ 0 s t hl1 (by
        intro j hj
        rw [decode_take, decode_take, List.getElem?_take, List.getElem?_take]
        split_ifs
        · exact hag j (by simpa using hj)
        · rfl) hst (by omega) (by omega)
      refine whileLoop_same p c hc hB fuel _ _ _ _ fs ft ?_ ?_ h1 hs ht hcs hct
      · rw [List.length_drop, List.length_drop, hlen]
      · intro n hn
        rw [decode_drop, decode_drop, List.getElem?_drop, List.getElem?_drop]
        exact hag _ (by omega)
    · rw [if_neg hle] at hs ht
      simp only [Option.some.injEq] at hs ht
      rw [← hs, ← ht]
      exact hst

theorem sameChannel_refl (c : Nat) (s : State) : SameChannel c s s :=
  ⟨rfl, rfl, rfl, rfl, rfl, rfl⟩

/-- One block of two zero samples leaves an idle state idle and advances the
sample counter by one. -/
theorem forLoop_idle (k : Int) :
    forLoop ⟨0, 0, 1000, 500, 2, 0⟩ [0, 0] 0 (idleAt k) = idleAt (k + 1) := by
  simp [forLoop, body, idleAt, State.init, calibrate, Params.zero, Arr2.get, Arr2.set,
    openHit, bump]

/-- A prefix of `n` all-zero blocks of two samples is consumed by `n` turns of
the `while` loop, which only advance the sample counter. -/
theorem whileLoop_idle (n : Nat) : ∀ (fuel : Nat) (k : Int) (rest : List Nat),
    whileLoop ⟨0, 0, 1000, 500, 2, 0⟩ (fuel + n) (idleAt k)
        (List.replicate (4 * n) 0 ++ rest)
      = whileLoop ⟨0, 0, 1000, 500, 2, 0⟩ fuel (idleAt (k + n)) rest := by
  induction n with
  | zero => intro fuel k rest; simp
  | succ n ih =>
    intro fuel k rest
    have h4 : 4 * (n + 1) = 4 * n + 1 + 1 + 1 + 1 := by ring
    have hf : fuel + (n + 1) = (fuel + n) + 1 := by ring
    rw [h4, hf]
    simp only [List.replicate_succ, List.cons_append, whileLoop, readBlock]
    have hlen : 2 * 2 ≤ (0 :: 0 :: 0 :: 0 :: (List.replicate (4 * n) 0 ++ rest)).length := by
      simp
    rw [if_pos hlen]
    simp only [Nat.reduceMul, List.take_succ_cons, List.take_zero, List.drop_succ_cons,
      List.drop_zero, decode]
    have h0 : (0 % 256 + 256 * (0 % 256)) = 0 := by norm_num
    rw [h0, forLoop_idle, ih]
    congr 2
    push_cast
    ring

/-- On a stream that begins with `n` all-zero blocks of two samples, `process`
reaches the rest of the stream in the idle state with sample counter `n`. -/
theorem process_idle_blocks (n : Nat) (rest : List Nat) :
    process (List.replicate (4 * n) 0 ++ rest) 0 0 1000 500 2 0
      = whileLoop ⟨0, 0, 1000, 500, 2, 0⟩ (3 * n + rest.length + 1) (idleAt n) rest := by
  have hfuel : (List.replicate (4 * n) 0 ++ rest).length + 1
      = (3 * n + rest.length + 1) + n := by
    simp only [List.length_append, List.length_replicate]
    ring
  have hinit : State.init = idleAt 0 := rfl
  unfold process
  rw [hfuel, hinit, whileLoop_idle]
  simp

/-- C1 (threshold crossing), evaluated on a stream of `2 ^ 31` all-zero sample
pairs followed by one pulse on channel 0.  The zero pairs alone leave the sample
counter at `2147483648`, so the pulse crosses the start threshold at raw index
`k = 2147483648`; with `pre_samp = 0` the stored record has
`start = -2147483648`, not `k`, because the `long` counter is narrowed to the
`int` array `hit_start` at line 199. -/
theorem start_narrowed_to_int :
    (process (List.replicate (4 * 2147483648) 0) 0 0 1000 500 2 0).map
      State.sample_number = some 2147483648 ∧
    (process (List.replicate (4 * 2147483648) 0 ++ encode [2000, 0, 0, 0])
      0 0 1000 500 2 0).map State.hits
      = some [⟨0, 0, -2147483648, 2147483649, 0⟩] := by
  constructor
  · have h := process_idle_blocks 2147483648 []
    rw [List.append_nil] at h
    rw [h]
    decide!
  · rw [process_idle_blocks]
    decide!

/-- C2 (closing condition).  Let the visits of `process` contain a visit `vo`
at which channel `c` is idle and its calibrated sample exceeds `start_thresh`,
and let `vc` be the first later visit of channel `c` whose calibrated sample is
below `end_thresh` (no visit of `c` in between, `mid`, is below it).  Then the
only records stored from `vo` up to `vc` belong to the other channel, the body
at `vc` stores exactly one record `r`, of channel `c` and with `end` equal to
the sample counter at `vc`, and `r` stays in the final registry at that
position. -/
theorem closing_condition (inp : List Nat) (c0 c1 sth eth : Int) (B : Nat) (pre : Int)
    (fin : State) (c : Nat) (before mid after : List Visit) (vo vc : Visit)
    (hrun : process inp c0 c1 sth eth B pre = some fin)
    (hdec : visits inp c0 c1 sth eth B pre = before ++ vo :: (mid ++ vc :: after))
    (hvo : vo.i % 2 = c) (hidle : vo.pre.hit_started.get c = 0)
    (hopen : vo.sample ⟨c0, c1, sth, eth, B, pre⟩ > sth)
    (hmid : ∀ v ∈ mid, v.i % 2 = c → ¬ v.sample ⟨c0, c1, sth, eth, B, pre⟩ < eth)
    (hvc : vc.i % 2 = c) (hclose : vc.sample ⟨c0, c1, sth, eth, B, pre⟩ < eth) :
    ∃ (r : hit_t) (others later : List hit_t),
      r.channel = (c : Int) ∧ r.end_ = vc.pre.sample_number ∧
      vc.pre.hits = vo.pre.hits ++ others ∧
      (∀ o ∈ others, o.channel ≠ (c : Int)) ∧
      (vc.post ⟨c0, c1, sth, eth, B, pre⟩).hits = vc.pre.hits ++ [r] ∧
      fin.hits = vc.pre.hits ++ r :: later := by
  obtain ⟨hr, hend⟩ := visits_run inp c0 c1 sth eth B pre fin hrun
  rw [hdec] at hr hend
  rw [isRun_append] at hr
  rw [runEnd_append] at hend
  obtain ⟨_, hr⟩ := hr
  simp only [IsRun, runEnd] at hr hend
  obtain ⟨_, hr⟩ := hr
  rw [isRun_append] at hr
  rw [runEnd_append] at hend
  obtain ⟨hmidrun, hr⟩ := hr
  simp only [IsRun, runEnd] at hr hend
  obtain ⟨hvcpre, hafter⟩ := hr
  have hc : c < 2 := by rw [← hvo]; exact Nat.mod_lt _ (by decide)
  subst hvo
  obtain ⟨hst, hh⟩ := body_open _ vo.pre vo.i vo.raw hidle hopen
  have hopen1 : (vo.post ⟨c0, c1, sth, eth, B, pre⟩).hit_started.get (vo.i % 2) ≠ 0 := by
    rw [Visit.post, hst]; decide
  obtain ⟨hst2, others, hoth, hch⟩ :=
    run_open_segment _ (vo.i % 2) hc mid _ hmidrun hopen1 hmid
  rw [← hvcpre] at hst2 hoth
  rw [← hvc] at hst2
  obtain ⟨r, hrc, hre, hrh⟩ := body_close _ vc.pre vc.i vc.raw hst2 hclose
  obtain ⟨later, hlater⟩ := run_hits_extend _ after _ hafter
  refine ⟨r, others, later, ?_, hre, ?_, hch, hrh, ?_⟩
  · rw [hrc, hvc]
  · rw [hoth, Visit.post, hh]
  · rw [← hend, hlater, Visit.post, hrh]
    simp

/-- Instance of `closing_condition` on the samples `2000, 0, 100, 0`: channel 0
opens at index `0` and closes at index `1`. -/
theorem closing_condition_witness :
    ∃ (r : hit_t) (others later : List hit_t),
      r.channel = ((0 : Nat) : Int) ∧ r.end_ = exVisit2.pre.sample_number ∧
      exVisit2.pre.hits = exVisit0.pre.hits ++ others ∧
      (∀ o ∈ others, o.channel ≠ ((0 : Nat) : Int)) ∧
      (exVisit2.post exParams).hits = exVisit2.pre.hits ++ [r] ∧
      (exVisit3.post exParams).hits = exVisit2.pre.hits ++ r :: later :=
  closing_condition (encode [2000, 0, 100, 0]) 0 0 1000 500 2 0
    (exVisit3.post exParams) 0 [] [exVisit1] [exVisit3] exVisit0 exVisit2
    (by decide!) (by decide!) (by decide!) (by decide!) (by decide!) (by decide!)
    (by decide!) (by decide!)

/-- C8 (no overlapping hits per channel) fails with a pre-trigger: with
`pre_samp = 1` and two pulses of channel 0 crossing the start threshold at
indices `0` and `2`, the two stored records have the ranges `[-1, 1]` and
`[1, 3]`, which share the index `1`. -/
theorem pretrigger_ranges_overlap :
    process (encode [2000, 0, 0, 0, 2000, 0, 0, 0]) 0 0 1000 500 2 1
      = some ⟨4, ⟨0, 0⟩, ⟨0, 0⟩, ⟨2, 0⟩, ⟨0, 0⟩, ⟨0, 0⟩, 2,
          [⟨0, 0, -1, 1, 0⟩, ⟨0, 0, 1, 3, 0⟩], false⟩ ∧
    (2 : Nat) ≤ MAX_HITS ∧
    overlaps ⟨0, 0, -1, 1, 0⟩ ⟨0, 0, 1, 3, 0⟩ ∧
    ¬ List.Pairwise (fun a b : hit_t => a.channel = b.channel → ¬ overlaps a b)
      [⟨0, 0, -1, 1, 0⟩, ⟨0, 0, 1, 3, 0⟩] := by
  refine ⟨by decide!, by decide, by decide!, ?_⟩
  intro h
  rw [List.pairwise_cons] at h
  exact h.1 _ (List.mem_singleton.2 rfl) rfl (by decide!)

/-- C8 (no overlapping hits per channel), amended: with `pre_samp = 0`, an even
block size, at most `MAX_HITS` records and a final sample counter below
`2 ^ 31`, every record ends before the start of every later record of the same
channel, so the closed ranges `[start, end]` of two records of one channel do
not intersect. -/
theorem no_overlap_without_pretrigger (inp : List Nat) (c0 c1 sth eth : Int) (B : Nat)
    (fin : State) (hB : B % 2 = 0)
    (hrun : process inp c0 c1 sth eth B 0 = some fin)
    (hcap : fin.hit_number ≤ MAX_HITS) (hidx : fin.sample_number < 2147483648) :
    fin.hits.Pairwise
      (fun a b => a.channel = b.channel → a.end_ < b.start ∧ ¬ overlaps a b) := by
  have h := whileLoop_ordered ⟨c0, c1, sth, eth, B, 0⟩ (le_refl _) (by norm_num) hB
    _ _ _ fin hrun (ordered_init 0) hidx hcap
  refine h.sorted.imp ?_
  intro a b hab hch
  have hlt := hab hch
  simp only [add_zero] at hlt
  refine ⟨hlt, ?_⟩
  rintro ⟨_, h2⟩
  omega

/-- Instance of `no_overlap_without_pretrigger` on two pulses of channel 0: the
records have the ranges `[0, 1]` and `[2, 3]`. -/
theorem no_overlap_without_pretrigger_witness :
    List.Pairwise
      (fun a b : hit_t => a.channel = b.channel → a.end_ < b.start ∧ ¬ overlaps a b)
      (⟨4, ⟨0, 0⟩, ⟨0, 0⟩, ⟨2, 0⟩, ⟨0, 0⟩, ⟨0, 0⟩, 2,
          [⟨0, 0, 0, 1, 0⟩, ⟨0, 0, 2, 3, 0⟩], false⟩ : State).hits :=
  no_overlap_without_pretrigger (encode [2000, 0, 0, 0, 2000, 0, 0, 0]) 0 0 1000 500 2
    ⟨4, ⟨0, 0⟩, ⟨0, 0⟩, ⟨2, 0⟩, ⟨0, 0⟩, ⟨0, 0⟩, 2, [⟨0, 0, 0, 1, 0⟩, ⟨0, 0, 2, 3, 0⟩], false⟩
    (by decide) (by decide!) (by decide) (by decide)

/-- C9 (channel independence).  For an even block size, two streams of the same
length whose decoded samples agree at every position of parity `c`, run with the
same parameters and both ending with at most `MAX_HITS` records, store the same
sequence of records with `channel = c`.  In either run every execution of the
loop body stores nothing or exactly one record, whose `channel` is the parity
`i % 2` of the index of the sample it processed. -/
theorem channel_independence (inp inp1 : List Nat) (c0 c1 sth eth : Int) (B : Nat)
    (pre : Int) (fin fin1 : State) (c : Nat) (hc : c < 2) (hB : B % 2 = 0)
    (hlen : inp.length = inp1.length)
    (hagree : ∀ n, n % 2 = c → (decode inp)[n]? = (decode inp1)[n]?)
    (hrun : process inp c0 c1 sth eth B pre = some fin)
    (hrun1 : process inp1 c0 c1 sth eth B pre = some fin1)
    (hcap : fin.hit_number ≤ MAX_HITS) (hcap1 : fin1.hit_number ≤ MAX_HITS) :
    fin.hits.filter (fun r => decide (r.channel = (c : Int)))
      = fin1.hits.filter (fun r => decide (r.channel = (c : Int))) ∧
    ∀ v : Visit,
      v ∈ visits inp c0 c1 sth eth B pre ∨ v ∈ visits inp1 c0 c1 sth eth B pre →
      (v.post ⟨c0, c1, sth, eth, B, pre⟩).hits = v.pre.hits ∨
      ∃ r : hit_t, r.channel = ((v.i % 2 : Nat) : Int) ∧
        (v.post ⟨c0, c1, sth, eth, B, pre⟩).hits = v.pre.hits ++ [r] := by
  constructor
  · unfold process at hrun hrun1
    rw [← hlen] at hrun1
    exact (whileLoop_same ⟨c0, c1, sth, eth, B, pre⟩ c hc hB _ _ _ inp inp1 fin fin1 hlen
      hagree (sameChannel_refl c _) hrun hrun1 hcap hcap1).records
  · intro v _
    rcases body_hits ⟨c0, c1, sth, eth, B, pre⟩ v.pre v.i v.raw with h | ⟨_, _, r, h1, _, h2⟩
    · exact Or.inl h
    · exact Or.inr ⟨r, h1, h2⟩

/-- Instance of `channel_independence` for channel 0 on the streams
`2000, 0, 100, 0` and `2000, 7, 100, 3000`. -/
theorem channel_independence_witness :
    (exVisit3.post exParams).hits.filter (fun r => decide (r.channel = ((0 : Nat) : Int)))
      = exFinal1.hits.filter (fun r => decide (r.channel = ((0 : Nat) : Int))) ∧
    ∀ v : Visit,
      v ∈ visits exStream 0 0 1000 500 2 0 ∨ v ∈ visits exStream1 0 0 1000 500 2 0 →
      (v.post exParams).hits = v.pre.hits ∨
      ∃ r : hit_t, r.channel = ((v.i % 2 : Nat) : Int) ∧
        (v.post exParams).hits = v.pre.hits ++ [r] :=
  channel_independence exStream exStream1 0 0 1000 500 2 0
    (exVisit3.post exParams) exFinal1 0 (by decide) (by decide) (by decide)
    (by
      have e1 : decode exStream = [2000, 0, 100, 0] := by decide
      have e2 : decode exStream1 = [2000, 7, 100, 3000] := by decide
      intro n hn
      rw [e1, e2]
      rcases n with _ | _ | _ | _ | n
      · rfl
      · omega
      · rfl
      · omega
      · simp)
    (by decide!) (by decide!) (by decide!) (by decide!)

/-- C3 (integral accumulation), evaluated on a hit with calibrated samples
`2000, 700, 100` on channel 0: the stored integral is `700 + 100 = 800`, because
`last_sample[channel]` already holds the current sample when line 208 reads it,
whereas the sum of `triangleIntegral` over consecutive samples is `1750`. -/
theorem integral_ignores_previous_sample :
    (process (encode [2000, 0, 700, 0, 100, 0]) 0 0 1000 500 2 0).map State.hits
      = some [⟨0, 700, 0, 2, 800⟩] ∧
    triangleIntegral 2000 700 + triangleIntegral 700 100 = 1750 := by
  decide!

/-- C4 (peak), evaluated on a hit with calibrated samples `3000, 600, 400` on
channel 0: the stored `max` is `600`; the opening sample `3000`, the largest of
the hit, is never compared with `hit_max`. -/
theorem peak_ignores_opening_sample :
    (process (encode [3000, 0, 600, 0, 400, 0]) 0 0 1000 500 2 0).map
      (fun st => st.hits.map hit_t.max) = some [600] ∧
    Max.max (3000 : Int) (Max.max 600 400) = 3000 := by
  decide!

/-- C5 (max-duration close), evaluated on a stream whose channel 0 opens a hit
at index `0` and stays at `2000`, above `end_thresh = 500`, for five more
samples: no record is stored and the count stays `0`, whatever maximum duration
was intended. -/
theorem no_close_without_low_sample :
    (process (encode [2000, 0, 2000, 0, 2000, 0, 2000, 0, 2000, 0, 2000, 0])
      0 0 1000 500 2 0).map (fun st => (st.hit_number, st.hits, st.hit_started.get 0))
      = some (0, [], 1) := by
  decide!

/-- C6 (capacity bound on the count), evaluated on 101 pulses one sample pair
per block: `process` returns the count `101`, above `MAX_HITS = 100`. -/
theorem count_exceeds_capacity :
    (process (encode (pulseTrain 101)) 0 0 1000 500 2 0).map State.hit_number
      = some 101 ∧ MAX_HITS < 101 := by
  decide!

/-- C7 (registry writes stay in bounds), evaluated on 101 pulses in one block of
404 samples: the 101st record is stored at index `100`, outside
`0 .. MAX_HITS - 1`. -/
theorem store_out_of_bounds :
    (process (encode (pulseTrain 101)) 0 0 1000 500 404 0).map
      (fun st => (st.overrun, st.hits.length)) = some (true, 101) := by
  decide!

/-- C10 (calibration), evaluated at `raw = 65535`, `offset = -1`: the calibrated
sample is `0`, not `max(0, raw - offset) = 65536`, and `process` opens no hit on
it although `65536 > start_thresh`. -/
theorem calibrate_wraps_negative_offset :
    calibrate 65535 (-1) = 0 ∧ Max.max (0 : Int) (65535 - (-1)) = 65536 ∧
    (process (encode [65535, 0, 0, 0]) (-1) 0 1000 500 2 0).map
      (fun st => (st.hit_number, st.hit_started.get 0)) = some (0, 0) := by
  decide!

/-! ## Calibration and integrator -/

theorem calibrate_lt (raw : Nat) (zero : Int) : calibrate raw zero < 65536 := by
  unfold calibrate
  split <;> omega

/-- C11 (calibration floor).  A raw sample below the channel offset is
calibrated to exactly `0`; and for every raw sample and offset the calibrated
sample, and hence the value every visit of `process` compares with the
thresholds, is never negative (it is a `uint16_t`). -/
theorem calibration_floor (raw : Nat) (zero : Int) (h : (raw : Int) < zero) :
    calibrate raw zero = 0 ∧
    (∀ (r : Nat) (z : Int), 0 ≤ (calibrate r z : Int) ∧ (calibrate r z : Int) < 65536) ∧
    ∀ (p : Params) (v : Visit), 0 ≤ v.sample p := by
  refine ⟨?_, ?_, ?_⟩
  · unfold calibrate
    rw [if_pos h]
  · intro r z
    have := calibrate_lt r z
    omega
  · intro p v
    unfold Visit.sample
    omega

/-- Instance of `calibration_floor` at `raw = 50`, `offset = 80`. -/
theorem calibration_floor_witness :
    calibrate 50 80 = 0 ∧
    (∀ (r : Nat) (z : Int), 0 ≤ (calibrate r z : Int) ∧ (calibrate r z : Int) < 65536) ∧
    ∀ (p : Params) (v : Visit), 0 ≤ v.sample p :=
  calibration_floor 50 80 (by decide)

/-- C12 (integrator formula).  For `a` and `b` in the calibrated-sample range
`0 .. 65535`, `triangleIntegral a b` is `|a + (b - a) / 2|`, which equals
`(a + b) / 2` and is not negative; and `triangleIntegral 100 300 = 200`. -/
theorem triangleIntegral_formula (a b : Int) (ha0 : 0 ≤ a) (_ha : a ≤ 65535)
    (hb0 : 0 ≤ b) (_hb : b ≤ 65535) :
    triangleIntegral a b = |(a : ℚ) + ((b : ℚ) - a) / 2| ∧
    triangleIntegral a b = ((a : ℚ) + b) / 2 ∧
    0 ≤ triangleIntegral a b ∧
    triangleIntegral 100 300 = 200 := by
  have ha1 : (0 : ℚ) ≤ a := by exact_mod_cast ha0
  have hb1 : (0 : ℚ) ≤ b := by exact_mod_cast hb0
  have e : (a : ℚ) + (1 / 2 : ℚ) * ((b - a : Int) : ℚ) = ((a : ℚ) + b) / 2 := by
    push_cast
    ring
  have hpos : (0 : ℚ) ≤ ((a : ℚ) + b) / 2 := by positivity
  refine ⟨?_, ?_, ?_, ?_⟩
  · unfold triangleIntegral
    congr 1
    push_cast
    ring
  · unfold triangleIntegral
    rw [e, abs_of_nonneg hpos]
  · unfold triangleIntegral
    exact abs_nonneg _
  · decide!

/-- Instance of `triangleIntegral_formula` at `a = 100`, `b = 300`. -/
theorem triangleIntegral_formula_witness :
    triangleIntegral 100 300 = |((100 : Int) : ℚ) + (((300 : Int) : ℚ) - (100 : Int)) / 2| ∧
    triangleIntegral 100 300 = (((100 : Int) : ℚ) + (300 : Int)) / 2 ∧
    0 ≤ triangleIntegral 100 300 ∧
    triangleIntegral 100 300 = 200 :=
  triangleIntegral_formula 100 300 (by decide) (by decide) (by decide) (by decide)

/-! ## Short final block -/

/-- A remainder shorter than one block, appended to a whole number of blocks,
changes neither the result nor the visits of the `while` loop. -/
theorem whileLoop_remainder (p : Params) (hB : 0 < p.samples_to_read) :
    ∀ (n fuel fuel1 : Nat) (st : State) (inp rem : List Nat),
    inp.length = n * p.samples_to_read * 2 → rem.length < 2 * p.samples_to_read →
    inp.length < fuel → inp.length + rem.length < fuel1 →
    whileLoop p fuel1 st (inp ++ rem) = whileLoop p fuel st inp ∧
      whileVisits p fuel1 st (inp ++ rem) = whileVisits p fuel st inp
  | _, 0, _, _, _, _ => by
    intro _ _ h _
    exact absurd h (Nat.not_lt_zero _)
  | _, _ + 1, 0, _, _, _ => by
    intro _ _ _ h
    exact absurd h (Nat.not_lt_zero _)
  | 0, fuel + 1, fuel1 + 1, st, inp, rem => by
    intro hlen hrem _ _
    have hnil : inp = [] := List.length_eq_zero.1 (by simpa using hlen)
    subst hnil
    have h1 : ¬ 2 * p.samples_to_read ≤ rem.length := by omega
    have h2 : ¬ 2 * p.samples_to_read ≤ ([] : List Nat).length := by
      simp only [List.length_nil]; omega
    simp only [List.nil_append, whileLoop, whileVisits, readBlock, if_neg h1, if_neg h2,
      and_self]
  | n + 1, fuel + 1, fuel1 + 1, st, inp, rem => by
    intro hlen hrem hf hf1
    have hexp : (n + 1) * p.samples_to_read * 2
        = n * p.samples_to_read * 2 + 2 * p.samples_to_read := by ring
    rw [hexp] at hlen
    have hge : 2 * p.samples_to_read ≤ inp.length := by omega
    have hge1 : 2 * p.samples_to_read ≤ (inp ++ rem).length := by
      rw [List.length_append]; omega
    have hdl : (inp.drop (2 * p.samples_to_read)).length = n * p.samples_to_read * 2 := by
      rw [List.length_drop, hlen]
      omega
    have ih := whileLoop_remainder p hB n fuel fuel1
      (forLoop p (decode (inp.take (2 * p.samples_to_read))) 0 st)
      (inp.drop (2 * p.samples_to_read)) rem hdl hrem (by omega) (by omega)
    simp only [whileLoop, whileVisits, readBlock, if_pos hge, if_pos hge1,
      List.take_append_of_le_length hge, List.drop_append_of_le_length hge]
    exact ⟨ih.1, by rw [ih.2]⟩

/-- C13 (short final block is discarded).  On `n` complete blocks of `B` samples
followed by a remainder of fewer than `B * 2` bytes, `process` returns, and it
returns the same final state (the same records and the same count) and makes the
same visits as on the `n` complete blocks alone: no sample of the remainder
reaches the loop body. -/
theorem short_final_block (inp rem : List Nat) (c0 c1 sth eth : Int) (B n : Nat)
    (pre : Int) (hlen : inp.length = n * B * 2) (hrem : rem.length < B * 2) :
    process (inp ++ rem) c0 c1 sth eth B pre = process inp c0 c1 sth eth B pre ∧
    visits (inp ++ rem) c0 c1 sth eth B pre = visits inp c0 c1 sth eth B pre ∧
    ∃ fin, process inp c0 c1 sth eth B pre = some fin := by
  have hB : 0 < B := by omega
  have h := whileLoop_remainder ⟨c0, c1, sth, eth, B, pre⟩ hB n (inp.length + 1)
    ((inp ++ rem).length + 1) State.init inp rem hlen (by simpa [Nat.mul_comm] using hrem)
    (Nat.lt_succ_self _) (by rw [List.length_append]; omega)
  exact ⟨h.1, h.2, process_terminates inp c0 c1 sth eth B pre hB⟩

/-- Instance of `short_final_block`: two blocks of two samples followed by three
stray bytes. -/
theorem short_final_block_witness :
    process (exStream ++ [7, 7, 7]) 0 0 1000 500 2 0 = process exStream 0 0 1000 500 2 0 ∧
    visits (exStream ++ [7, 7, 7]) 0 0 1000 500 2 0 = visits exStream 0 0 1000 500 2 0 ∧
    ∃ fin, process exStream 0 0 1000 500 2 0 = some fin :=
  short_final_block exStream [7, 7, 7] 0 0 1000 500 2 2 0 (by decide) (by decide)

/-! ## Emission order -/

/-- The loop body keeps the registry chronological. -/
theorem body_chrono (p : Params) (st : State) (i raw : Nat) (h : Chrono st) :
    Chrono (body p st i raw).1 := by
  obtain ⟨hb, hs⟩ := h
  have hm := (body_mono p st i raw).1
  rcases body_hits p st i raw with h1 | ⟨_, _, r, _, hre, h1⟩
  · constructor
    · rw [h1]
      intro q hq
      have := hb q hq
      omega
    · rw [h1]
      exact hs
  · constructor
    · rw [h1]
      intro q hq
      rcases List.mem_append.1 hq with hq | hq
      · have := hb q hq
        omega
      · rw [List.mem_singleton] at hq
        subst hq
        omega
    · rw [h1, List.pairwise_append]
      refine ⟨hs, List.pairwise_singleton _ _, ?_⟩
      intro a ha b hb2
      rw [List.mem_singleton] at hb2
      subst hb2
      have := hb a ha
      omega

/-- A run keeps the registry chronological. -/
theorem run_chrono (p : Params) : ∀ (vs : List Visit) (st : State), IsRun p st vs →
    Chrono st → Chrono (runEnd p st vs)
  | [], _, _, h => h
  | v :: vs, st, hr, h => by
    obtain ⟨hpre, hrest⟩ := hr
    subst hpre
    exact run_chrono p vs _ hrest (body_chrono p v.pre v.i v.raw h)

theorem chrono_init : Chrono State.init := by
  constructor <;> simp [State.init]

/-- C14 (emission order is chronological).  The `end` fields of the records
returned by `process` do not decrease along the registry, across both channels;
and the registry is in closing order: every execution of the loop body leaves
the registry alone or appends one record, whose `end` is the current sample
counter, at its end, and the final registry extends the registry it left. -/
theorem emission_chronological (inp : List Nat) (c0 c1 sth eth : Int) (B : Nat)
    (pre : Int) (fin : State) (hrun : process inp c0 c1 sth eth B pre = some fin) :
    fin.hits.Pairwise (fun a b => a.end_ ≤ b.end_) ∧
    ∀ (before after : List Visit) (v : Visit),
      visits inp c0 c1 sth eth B pre = before ++ v :: after →
      ((v.post ⟨c0, c1, sth, eth, B, pre⟩).hits = v.pre.hits ∨
        ∃ r : hit_t, r.end_ = v.pre.sample_number ∧
          (v.post ⟨c0, c1, sth, eth, B, pre⟩).hits = v.pre.hits ++ [r]) ∧
      ∃ later, fin.hits = (v.post ⟨c0, c1, sth, eth, B, pre⟩).hits ++ later := by
  obtain ⟨hr, hend⟩ := visits_run inp c0 c1 sth eth B pre fin hrun
  constructor
  · rw [← hend]
    exact (run_chrono _ _ _ hr chrono_init).sorted
  · intro before after v hdec
    rw [hdec] at hr hend
    rw [isRun_append] at hr
    rw [runEnd_append] at hend
    simp only [IsRun, runEnd] at hr hend
    constructor
    · rcases body_hits ⟨c0, c1, sth, eth, B, pre⟩ v.pre v.i v.raw with h | ⟨_, _, r, _, h1, h2⟩
      · exact Or.inl h
      · exact Or.inr ⟨r, h1, h2⟩
    · rw [← hend]
      exact run_hits_extend _ after _ hr.2.2

/-- Instance of `emission_chronological` on the samples `2000, 0, 100, 0`, at
the visit that closes the hit of channel 0. -/
theorem emission_chronological_witness :
    (exVisit3.post exParams).hits.Pairwise (fun a b => a.end_ ≤ b.end_) ∧
    ((exVisit2.post exParams).hits = exVisit2.pre.hits ∨
      ∃ r : hit_t, r.end_ = exVisit2.pre.sample_number ∧
        (exVisit2.post exParams).hits = exVisit2.pre.hits ++ [r]) ∧
    ∃ later, (exVisit3.post exParams).hits = (exVisit2.post exParams).hits ++ later :=
  ⟨(emission_chronological exStream 0 0 1000 500 2 0 (exVisit3.post exParams)
      (by decide!)).1,
   (emission_chronological exStream 0 0 1000 500 2 0 (exVisit3.post exParams)
      (by decide!)).2 [exVisit0, exVisit1] [exVisit3] exVisit2 (by decide!)⟩

/-! ## Count of records -/

/-- The loop body counts and stores one record exactly at a close event. -/
theorem body_count (p : Params) (st : State) (i raw : Nat) :
    (body p st i raw).1.hit_number
        = st.hit_number + (if closeEvent p ⟨st, i, raw⟩ = true then 1 else 0) ∧
    (body p st i raw).1.hits.length
        = st.hits.length + (if closeEvent p ⟨st, i, raw⟩ = true then 1 else 0) := by
  by_cases h0 : st.hit_started.get (i % 2) = 0
  · simp only [body, h0, if_true, bump, openHit, closeEvent, Visit.sample, ne_eq,
      not_true_eq_false, decide_False, Bool.false_and, Bool.false_eq_true, if_false, add_zero]
    split_ifs <;> exact ⟨rfl, rfl⟩
  · by_cases hc : (calibrate raw (p.zero.get (i % 2)) : Int) < p.end_thresh
    · simp only [body, h0, if_false, hc, if_true, closeHit, accumulate, bump, closeEvent,
        Visit.sample, ne_eq, not_false_eq_true, decide_True, Bool.and_self]
      split_ifs <;> simp
    · simp only [body, h0, if_false, hc, accumulate, bump, closeEvent, Visit.sample, ne_eq,
        not_false_eq_true, decide_True, decide_False, Bool.and_false, Bool.false_eq_true,
        add_zero]
      split_ifs <;> exact ⟨rfl, rfl⟩

/-- Along a run the hit count and the length of the registry grow by the number
of close events. -/
theorem run_count (p : Params) : ∀ (vs : List Visit) (st : State), IsRun p st vs →
    (runEnd p st vs).hit_number = st.hit_number + vs.countP (closeEvent p) ∧
    (runEnd p st vs).hits.length = st.hits.length + vs.countP (closeEvent p)
  | [], _, _ => by simp [runEnd]
  | v :: vs, st, hr => by
    obtain ⟨hpre, hrest⟩ := hr
    subst hpre
    have ih := run_count p vs _ hrest
    have hb := body_count p v.pre v.i v.raw
    rw [show (⟨v.pre, v.i, v.raw⟩ : Visit) = v from rfl] at hb
    simp only [runEnd, Visit.post, List.countP_cons] at ih ⊢
    rw [ih.1, ih.2, hb.1, hb.2]
    constructor <;> omega

/-- C15 (hit open at end of stream is dropped).  The count returned by `process`
is the number of close events among its visits, and it is the number of records
stored.  If a visit `vo` opens a hit on channel `c` and no later visit of `c`,
up to the end of the last complete block, has a calibrated sample below
`end_thresh`, then the hit is still open in the final state and every record
stored from `vo` on belongs to the other channel: the hit produces no record. -/
theorem open_hit_dropped (inp : List Nat) (c0 c1 sth eth : Int) (B : Nat) (pre : Int)
    (fin : State) (hrun : process inp c0 c1 sth eth B pre = some fin) :
    fin.hit_number
      = (visits inp c0 c1 sth eth B pre).countP (closeEvent ⟨c0, c1, sth, eth, B, pre⟩) ∧
    fin.hits.length = fin.hit_number ∧
    ∀ (c : Nat) (before rest : List Visit) (vo : Visit),
      visits inp c0 c1 sth eth B pre = before ++ vo :: rest →
      vo.i % 2 = c → vo.pre.hit_started.get c = 0 →
      vo.sample ⟨c0, c1, sth, eth, B, pre⟩ > sth →
      (∀ v ∈ rest, v.i % 2 = c → ¬ v.sample ⟨c0, c1, sth, eth, B, pre⟩ < eth) →
      fin.hit_started.get c ≠ 0 ∧
      ∃ others, fin.hits = vo.pre.hits ++ others ∧ ∀ o ∈ others, o.channel ≠ (c : Int) := by
  obtain ⟨hr, hend⟩ := visits_run inp c0 c1 sth eth B pre fin hrun
  have hcnt := run_count _ _ _ hr
  rw [hend] at hcnt
  refine ⟨by simpa [State.init] using hcnt.1, ?_, ?_⟩
  · rw [hcnt.1, hcnt.2]
    simp [State.init]
  · intro c before rest vo hdec hvo hidle hopen hrest
    rw [hdec] at hr hend
    rw [isRun_append] at hr
    rw [runEnd_append] at hend
    simp only [IsRun, runEnd] at hr hend
    have hc : c < 2 := by rw [← hvo]; exact Nat.mod_lt _ (by decide)
    subst hvo
    obtain ⟨hst, hh⟩ := body_open _ vo.pre vo.i vo.raw hidle hopen
    have hopen1 : (vo.post ⟨c0, c1, sth, eth, B, pre⟩).hit_started.get (vo.i % 2) ≠ 0 := by
      rw [Visit.post, hst]; decide
    obtain ⟨hfin, others, hoth, hch⟩ :=
      run_open_segment _ (vo.i % 2) hc rest _ hr.2.2 hopen1 hrest
    rw [hend] at hfin hoth
    exact ⟨hfin, others, by rw [hoth, Visit.post, hh], hch⟩

/-- Instance of `open_hit_dropped` on the samples `2000, 0, 700, 0`: channel 0
opens a hit at index `0` that is still open when the stream ends. -/
theorem open_hit_dropped_witness :
    (exVisit3b.post exParams).hit_number
      = (visits exStream2 0 0 1000 500 2 0).countP (closeEvent ⟨0, 0, 1000, 500, 2, 0⟩) ∧
    (exVisit3b.post exParams).hits.length = (exVisit3b.post exParams).hit_number ∧
    (exVisit3b.post exParams).hit_started.get 0 ≠ 0 ∧
    ∃ others, (exVisit3b.post exParams).hits = exVisit0.pre.hits ++ others ∧
      ∀ o ∈ others, o.channel ≠ ((0 : Nat) : Int) :=
  ⟨(open_hit_dropped exStream2 0 0 1000 500 2 0 (exVisit3b.post exParams) (by decide!)).1,
   (open_hit_dropped exStream2 0 0 1000 500 2 0 (exVisit3b.post exParams) (by decide!)).2.1,
   (open_hit_dropped exStream2 0 0 1000 500 2 0 (exVisit3b.post exParams) (by decide!)).2.2
      0 [] [exVisit1, exVisit2b, exVisit3b] exVisit0
      (by decide!) (by decide!) (by decide!) (by decide!) (by decide!)⟩

/-! ## Command line -/

/-- Once an option calls `usage`, the rest of the command line does not
matter. -/
theorem parseOpts_rejects (bad : Opt) (hbad : ∀ cfg, applyOpt cfg bad = none) :
    ∀ (opts : List Opt) (cfg : Settings), bad ∈ opts → parseOpts cfg opts = none
  | [], _, h => absurd h (List.not_mem_nil _)
  | o :: rest, cfg, h => by
    simp only [parseOpts]
    rcases List.mem_cons.1 h with rfl | h1
    · rw [hbad]
    · rcases applyOpt cfg o with _ | cfg1
      · rfl
      · exact parseOpts_rejects bad hbad rest cfg1 h1

/-- A command line with a zero start threshold, a zero end threshold or an odd
block size takes the `usage` path. -/
theorem main_rejects (opts : List Opt) (operands : Nat) (fileOpens : Bool)
    (h : Opt.s 0 ∈ opts ∨ Opt.e 0 ∈ opts ∨ ∃ v, Int.tmod v 2 ≠ 0 ∧ Opt.b v ∈ opts) :
    main opts operands fileOpens = Outcome.usage := by
  have hnone : parseOpts Settings.default opts = none := by
    rcases h with h | h | ⟨v, hv, h⟩
    · exact parseOpts_rejects _ (fun _ => by simp [applyOpt]) opts _ h
    · exact parseOpts_rejects _ (fun _ => by simp [applyOpt]) opts _ h
    · exact parseOpts_rejects _ (fun _ => by simp [applyOpt, hv]) opts _ h
  simp only [main, hnone]

/-- C16 (configuration errors are rejected), evaluated on the command lines
`-s -5` and `-e -5`: `main` calls `process` with the negative threshold, because
lines 105 and 113 compare the threshold with `0` by `==`. -/
theorem negative_threshold_accepted :
    main [Opt.s (-5)] 0 true
      = Outcome.processCalled ⟨0, 0, -5, 500, 0, 1024, "-"⟩ ∧
    main [Opt.e (-5)] 0 true
      = Outcome.processCalled ⟨0, 0, 1000, -5, 0, 1024, "-"⟩ := by
  decide

/-! ## Channel-state invariant -/

theorem triangleIntegral_nonneg (a b : Int) : 0 ≤ triangleIntegral a b := by
  unfold triangleIntegral
  exact abs_nonneg _

/-- The loop body preserves the channel-state invariant. -/
theorem body_channelInv (p : Params) (st : State) (i raw : Nat) (h : ChannelInv st) :
    ChannelInv (body p st i raw).1 := by
  obtain ⟨h1, h2, h3, h4, h5, h6, h7⟩ := h
  have hrec : ∀ (q : hit_t), 0 ≤ q.max → 0 ≤ q.integral →
      ∀ r ∈ st.hits ++ [q], 0 ≤ r.max ∧ 0 ≤ r.integral := by
    intro q hq1 hq2 r hr
    rcases List.mem_append.1 hr with hr | hr
    · exact h7 r hr
    · rw [List.mem_singleton] at hr
      subst hr
      exact ⟨hq1, hq2⟩
  rcases Nat.mod_two_eq_zero_or_one i with hi | hi
  · simp only [body, hi, bump_zero, openHit, closeHit, closeRecord, accumulate,
      Arr2.get_zero, Arr2.set_zero]
    split_ifs <;> constructor <;>
      first
      | assumption
      | exact Or.inl rfl
      | exact Or.inr rfl
      | exact le_refl _
      | exact add_nonneg h3 (triangleIntegral_nonneg _ _)
      | exact Int.natCast_nonneg _
      | exact hrec _ (Int.natCast_nonneg _) (add_nonneg h3 (triangleIntegral_nonneg _ _))
      | exact hrec _ h1 (add_nonneg h3 (triangleIntegral_nonneg _ _))
  · simp only [body, hi, bump_one, openHit, closeHit, closeRecord, accumulate,
      Arr2.get_one, Arr2.set_one]
    split_ifs <;> constructor <;>
      first
      | assumption
      | exact Or.inl rfl
      | exact Or.inr rfl
      | exact le_refl _
      | exact add_nonneg h4 (triangleIntegral_nonneg _ _)
      | exact Int.natCast_nonneg _
      | exact hrec _ (Int.natCast_nonneg _) (add_nonneg h4 (triangleIntegral_nonneg _ _))
      | exact hrec _ h2 (add_nonneg h4 (triangleIntegral_nonneg _ _))

/-- The visits of `whileLoop` form a run from its initial state, whether or not
the fuel suffices. -/
theorem whileVisits_isRun (p : Params) : ∀ (fuel : Nat) (st : State) (inp : List Nat),
    IsRun p st (whileVisits p fuel st inp)
  | 0, _, _ => by simp [whileVisits, IsRun]
  | fuel + 1, st, inp => by
    simp only [whileVisits]
    rcases readBlock p.samples_to_read inp with _ | ⟨arr, rest⟩
    · simp [IsRun]
    · simp only
      have h1 := forVisits_run p arr 0 st
      rw [isRun_append, h1.2]
      exact ⟨h1.1, whileVisits_isRun p fuel _ rest⟩

/-- Every state of a run that starts in a state with the channel-state
invariant has it. -/
theorem run_channelInv (p : Params) : ∀ (vs : List Visit) (st : State), IsRun p st vs →
    ChannelInv st →
    (∀ v ∈ vs, ChannelInv v.pre ∧ ChannelInv (v.post p)) ∧ ChannelInv (runEnd p st vs)
  | [], _, _, h => ⟨fun _ hv => absurd hv (List.not_mem_nil _), h⟩
  | v :: vs, st, hr, h => by
    obtain ⟨hpre, hrest⟩ := hr
    subst hpre
    have hpost : ChannelInv (v.post p) := body_channelInv p v.pre v.i v.raw h
    obtain ⟨h1, h2⟩ := run_channelInv p vs _ hrest hpost
    refine ⟨?_, h2⟩
    intro w hw
    rcases List.mem_cons.1 hw with rfl | hw
    · exact ⟨h, hpost⟩
    · exact h1 w hw

theorem channelInv_init : ChannelInv State.init := by
  constructor <;> simp [State.init]

/-- C17 (channel-state invariant).  For every stream and all parameters, the
state before and the state after every execution of the loop body, and the
final state of `process`, satisfy `ChannelInv`: `hit_max` and `hit_integral` of
both channels are not negative, both open flags are `0` or `1`, and every record
stored so far has `max ≥ 0` and `integral ≥ 0`. -/
theorem channel_state_invariant (inp : List Nat) (c0 c1 sth eth : Int) (B : Nat)
    (pre : Int) :
    (∀ v ∈ visits inp c0 c1 sth eth B pre,
      ChannelInv v.pre ∧ ChannelInv (v.post ⟨c0, c1, sth, eth, B, pre⟩)) ∧
    ∀ fin, process inp c0 c1 sth eth B pre = some fin →
      ChannelInv fin ∧ ∀ r ∈ fin.hits, 0 ≤ r.max ∧ 0 ≤ r.integral := by
  have hr : IsRun ⟨c0, c1, sth, eth, B, pre⟩ State.init (visits inp c0 c1 sth eth B pre) :=
    whileVisits_isRun _ _ _ _
  have h := run_channelInv _ _ _ hr channelInv_init
  refine ⟨h.1, ?_⟩
  intro fin hfin
  have hend := (visits_run inp c0 c1 sth eth B pre fin hfin).2
  rw [hend] at h
  exact ⟨h.2, h.2.records⟩

/-- Instance of `channel_state_invariant` on the samples `2000, 0, 100, 0`, at
the visit that closes the hit of channel 0 and at the final state. -/
theorem channel_state_invariant_witness :
    (ChannelInv exVisit2.pre ∧ ChannelInv (exVisit2.post exParams)) ∧
    ChannelInv (exVisit3.post exParams) ∧
    ∀ r ∈ (exVisit3.post exParams).hits, 0 ≤ r.max ∧ 0 ≤ r.integral :=
  ⟨(channel_state_invariant exStream 0 0 1000 500 2 0).1 exVisit2 (by decide!),
   (channel_state_invariant exStream 0 0 1000 500 2 0).2 (exVisit3.post exParams)
     (by decide!)⟩

/-! ## Integral of a hit -/

/-- The integrator applied to a calibrated sample and itself returns the
sample. -/
theorem triangleIntegral_self (s : Int) (hs : 0 ≤ s) : triangleIntegral s s = (s : ℚ) := by
  unfold triangleIntegral
  have h0 : (0 : ℚ) ≤ (s : ℚ) := by exact_mod_cast hs
  simp only [sub_self, Int.cast_zero, mul_zero, add_zero]
  exact abs_of_nonneg h0

/-- Effect of the loop body on the running integral of the channel of its
sample: opening a hit resets it to `0`; while a hit is open the calibrated
sample is added; and a record stored at a close carries the sum. -/
theorem body_integral (p : Params) (st : State) (i raw : Nat) :
    (st.hit_started.get (i % 2) = 0 →
      (calibrate raw (p.zero.get (i % 2)) : Int) > p.start_thresh →
      (body p st i raw).1.hit_integral.get (i % 2) = 0) ∧
    (st.hit_started.get (i % 2) ≠ 0 →
      (body p st i raw).1.hit_integral.get (i % 2)
        = st.hit_integral.get (i % 2) + ((calibrate raw (p.zero.get (i % 2)) : Int) : ℚ)) ∧
    (st.hit_started.get (i % 2) ≠ 0 →
      (calibrate raw (p.zero.get (i % 2)) : Int) < p.end_thresh →
      ∃ r : hit_t, r.channel = ((i % 2 : Nat) : Int) ∧
        r.integral
          = st.hit_integral.get (i % 2) + ((calibrate raw (p.zero.get (i % 2)) : Int) : ℚ) ∧
        (body p st i raw).1.hits = st.hits ++ [r]) := by
  have htri := triangleIntegral_self (calibrate raw (p.zero.get (i % 2)) : Int)
    (Int.natCast_nonneg _)
  refine ⟨?_, ?_, ?_⟩
  · intro h0 hs
    simp only [body, h0, if_true, bump, openHit, hs]
    split_ifs <;> simp [Arr2.get_set_same]
  · intro h0
    simp only [body, h0, if_false, bump, closeHit, accumulate, Arr2.get_set_same, htri]
    split_ifs <;> simp [Arr2.get_set_same]
  · intro h0 hc
    simp only [body, h0, if_false, hc, if_true, bump, closeHit, closeRecord, accumulate,
      Arr2.get_set_same, htri]
    split_ifs <;> exact ⟨_, rfl, by simp [Arr2.get_set_same], rfl⟩

/-- The loop body leaves the running integral of the other channel alone. -/
theorem body_integral_other (p : Params) (st : State) (i raw d : Nat)
    (hd : d < 2) (hne : d ≠ i % 2) :
    (body p st i raw).1.hit_integral.get d = st.hit_integral.get d := by
  have hc : i % 2 < 2 := Nat.mod_lt _ (by decide)
  simp only [body, bump, openHit, closeHit, accumulate]
  split_ifs <;> simp [Arr2.get_set_other _ _ _ _ hc hd hne]

/-- While a hit is open on channel `c` and no sample of `c` falls below
`end_thresh`, the hit stays open and its running integral grows by the sum of
the calibrated samples of `c`. -/
theorem run_integral_segment (p : Params) (c : Nat) (hc : c < 2) :
    ∀ (vs : List Visit) (st : State), IsRun p st vs →
    st.hit_started.get c ≠ 0 →
    (∀ v ∈ vs, v.i % 2 = c → ¬ v.sample p < p.end_thresh) →
    (runEnd p st vs).hit_started.get c ≠ 0 ∧
      (runEnd p st vs).hit_integral.get c
        = st.hit_integral.get c + ((sampleSum p c vs : Int) : ℚ)
  | [], st, _, h0, _ => ⟨h0, by simp [runEnd, sampleSum]⟩
  | v :: vs, st, h, h0, hm => by
    obtain ⟨hpre, hrest⟩ := h
    subst hpre
    have hm1 : ∀ w ∈ vs, w.i % 2 = c → ¬ w.sample p < p.end_thresh :=
      fun w hw => hm w (List.mem_cons_of_mem _ hw)
    simp only [runEnd, sampleSum]
    by_cases hv : v.i % 2 = c
    · have hlow := hm v (List.mem_cons_self _ _) hv
      subst hv
      have hk := body_keep p v.pre v.i v.raw h0 hlow
      have hi := (body_integral p v.pre v.i v.raw).2.1 h0
      have h0p : (v.post p).hit_started.get (v.i % 2) ≠ 0 := by
        rw [Visit.post, hk]; exact h0
      obtain ⟨hfin, hsum⟩ := run_integral_segment p _ hc vs _ hrest h0p hm1
      refine ⟨hfin, ?_⟩
      rw [hsum, Visit.post, hi, if_pos rfl]
      simp only [Visit.sample]
      push_cast
      ring
    · have hk := body_started_other p v.pre v.i v.raw c hc (fun h => hv h.symm)
      have hi := body_integral_other p v.pre v.i v.raw c hc (fun h => hv h.symm)
      have h0p : (v.post p).hit_started.get c ≠ 0 := by
        rw [Visit.post, hk]; exact h0
      obtain ⟨hfin, hsum⟩ := run_integral_segment p c hc vs _ hrest h0p hm1
      refine ⟨hfin, ?_⟩
      rw [hsum, Visit.post, hi, if_neg hv]
      simp

theorem sampleSum_append (p : Params) (c : Nat) : ∀ (a b : List Visit),
    sampleSum p c (a ++ b) = sampleSum p c a + sampleSum p c b
  | [], b => by simp [sampleSum]
  | v :: a, b => by
    have ih := sampleSum_append p c a b
    show sampleSum p c (v :: (a ++ b)) = _
    simp only [sampleSum]
    rw [ih]
    ring

/-- C18 (integral is the plain sum).  Let `vo` open a hit on channel `c` and
let `vc` be the first later visit of `c` with a calibrated sample below
`end_thresh`.  The record stored at `vc` has as `integral` the sum of the
calibrated samples of channel `c` at the visits after `vo` up to and including
`vc`; neither the opening sample nor any earlier sample enters it, since each
step adds `triangleIntegral s s = s` for the current sample `s`. -/
theorem integral_is_plain_sum (inp : List Nat) (c0 c1 sth eth : Int) (B : Nat)
    (pre : Int) (fin : State) (c : Nat) (before mid after : List Visit) (vo vc : Visit)
    (hrun : process inp c0 c1 sth eth B pre = some fin)
    (hdec : visits inp c0 c1 sth eth B pre = before ++ vo :: (mid ++ vc :: after))
    (hvo : vo.i % 2 = c) (hidle : vo.pre.hit_started.get c = 0)
    (hopen : vo.sample ⟨c0, c1, sth, eth, B, pre⟩ > sth)
    (hmid : ∀ v ∈ mid, v.i % 2 = c → ¬ v.sample ⟨c0, c1, sth, eth, B, pre⟩ < eth)
    (hvc : vc.i % 2 = c) (hclose : vc.sample ⟨c0, c1, sth, eth, B, pre⟩ < eth) :
    (∃ (r : hit_t) (later : List hit_t),
      r.channel = (c : Int) ∧
      r.integral = ((sampleSum ⟨c0, c1, sth, eth, B, pre⟩ c (mid ++ [vc]) : Int) : ℚ) ∧
      (vc.post ⟨c0, c1, sth, eth, B, pre⟩).hits = vc.pre.hits ++ [r] ∧
      fin.hits = vc.pre.hits ++ r :: later) ∧
    ∀ s : Int, 0 ≤ s → triangleIntegral s s = (s : ℚ) := by
  refine ⟨?_, triangleIntegral_self⟩
  obtain ⟨hr, hend⟩ := visits_run inp c0 c1 sth eth B pre fin hrun
  rw [hdec] at hr hend
  rw [isRun_append] at hr
  rw [runEnd_append] at hend
  obtain ⟨_, hr⟩ := hr
  simp only [IsRun, runEnd] at hr hend
  obtain ⟨_, hr⟩ := hr
  rw [isRun_append] at hr
  rw [runEnd_append] at hend
  obtain ⟨hmidrun, hr⟩ := hr
  simp only [IsRun, runEnd] at hr hend
  obtain ⟨hvcpre, hafter⟩ := hr
  have hc : c < 2 := by rw [← hvo]; exact Nat.mod_lt _ (by decide)
  subst hvo
  obtain ⟨hst, _⟩ := body_open _ vo.pre vo.i vo.raw hidle hopen
  have hint0 := (body_integral ⟨c0, c1, sth, eth, B, pre⟩ vo.pre vo.i vo.raw).1 hidle hopen
  have hopen1 : (vo.post ⟨c0, c1, sth, eth, B, pre⟩).hit_started.get (vo.i % 2) ≠ 0 := by
    rw [Visit.post, hst]; decide
  obtain ⟨hst2, hsum⟩ :=
    run_integral_segment _ (vo.i % 2) hc mid _ hmidrun hopen1 hmid
  rw [← hvcpre] at hst2 hsum
  rw [Visit.post, hint0, zero_add] at hsum
  rw [← hvc] at hst2
  obtain ⟨r, hrc, hri, hrh⟩ :=
    (body_integral ⟨c0, c1, sth, eth, B, pre⟩ vc.pre vc.i vc.raw).2.2 hst2 hclose
  obtain ⟨later, hlater⟩ := run_hits_extend _ after _ hafter
  refine ⟨r, later, ?_, ?_, hrh, ?_⟩
  · rw [hrc, hvc]
  · rw [hri, hvc, hsum, sampleSum_append]
    simp only [sampleSum, if_pos hvc, add_zero, Visit.sample, hvc]
    push_cast
    ring
  · rw [← hend, hlater, Visit.post, hrh]
    simp

/-- Instance of `integral_is_plain_sum` on the samples `2000, 0, 700, 0, 100, 0`:
the record of channel 0 has the integral `700 + 100`. -/
theorem integral_is_plain_sum_witness :
    (∃ (r : hit_t) (later : List hit_t),
      r.channel = ((0 : Nat) : Int) ∧
      r.integral
        = ((sampleSum exParams 0 ([exVisit1, exVisit2b, exVisit3b] ++ [exVisit4b]) : Int) : ℚ) ∧
      (exVisit4b.post exParams).hits = exVisit4b.pre.hits ++ [r] ∧
      (exVisit5b.post exParams).hits = exVisit4b.pre.hits ++ r :: later) ∧
    ∀ s : Int, 0 ≤ s → triangleIntegral s s = (s : ℚ) :=
  integral_is_plain_sum exStream3 0 0 1000 500 2 0 (exVisit5b.post exParams) 0
    [] [exVisit1, exVisit2b, exVisit3b] [exVisit5b] exVisit0 exVisit4b
    (by decide!) (by decide!) (by decide!) (by decide!) (by decide!) (by decide!)
    (by decide!) (by decide!)

/-! ## Length and separation of hits -/

/-- C19 (a hit never has zero length), evaluated on a stream with 100 pulses on
channel 1, then a hit of channel 1 that closes at index `201` on the very sample
pair at which channel 0 opens a hit: the close stores the 101st record, line 227
leaves the `for` loop before the counter is advanced, and the next block closes
the hit of channel 0 at the same counter value.  The last record has
`start = 201` and `end = 201` with `pre_samp = 0`, so `end ≥ start + pre + 1`
fails. -/
theorem zero_length_hit_after_overflow :
    (process (encode (pulseTrain1 100 ++ [0, 2000, 2000, 0, 0, 0])) 0 0 1000 500 2 0).map
      (fun st => (st.hit_number, st.hits.getLast?))
      = some (102, some ⟨0, 0, 201, 201, 0⟩) ∧
    ¬ ((201 : Int) ≥ 201 + 0 + 1) := by
  decide!

/-- C20 (separation of consecutive records of a channel), evaluated on a stream
of `2 ^ 31 - 2` all-zero sample pairs followed by two pulses on channel 0.  The
first record ends at index `2147483647`; the second hit crosses the start
threshold at index `2147483648`, which line 199 narrows to `-2147483648`, so
with `pre_samp = 0` the second record has `start + pre_samp = -2147483648`, not
above the first record's `end`, and the two ranges intersect. -/
theorem separation_lost_at_int_range :
    (process (List.replicate (4 * 2147483646) 0 ++ encode [2000, 0, 0, 0, 2000, 0, 0, 0])
      0 0 1000 500 2 0).map (fun st => (st.hit_number, st.hits))
      = some (2, [⟨0, 0, 2147483646, 2147483647, 0⟩, ⟨0, 0, -2147483648, 2147483649, 0⟩]) ∧
    ¬ ((2147483647 : Int) < -2147483648 + 0) ∧
    overlaps ⟨0, 0, 2147483646, 2147483647, 0⟩ ⟨0, 0, -2147483648, 2147483649, 0⟩ := by
  rw [process_idle_blocks]
  decide!

/-- The narrowed difference `hit_start - pre_samp`, shifted back by `pre_samp`,
never exceeds `hit_start` when both operands are in the `int` range. -/
theorem toInt32_sub_add_le (hs pre : Int) (h0 : 0 ≤ hs) (h1 : hs < 2147483648)
    (hp0 : -2147483648 ≤ pre) (hp1 : pre < 2147483648) :
    toInt32 (hs - pre) + pre ≤ hs := by
  unfold toInt32
  norm_num
  omega

/-- A loop body that does not `break` preserves the length invariant, as long
as the sample counter is below `2 ^ 31` and the pre-trigger count is an `int`. -/
theorem body_posLength (p : Params) (hp0 : -2147483648 ≤ p.pre_samp)
    (hp1 : p.pre_samp < 2147483648) (st : State) (i raw : Nat)
    (hI : PosLength p.pre_samp (i % 2) st) (hlt : st.sample_number < 2147483648)
    (hnb : (body p st i raw).2 = false) :
    PosLength p.pre_samp ((i + 1) % 2) (body p st i raw).1 := by
  obtain ⟨hsn, hview⟩ := body_view p st i raw hnb
  obtain ⟨h1, h2, h3, h4⟩ := hI
  have ht : toInt32 st.sample_number = st.sample_number :=
    toInt32_of_range _ (by omega) hlt
  have hrec : ∀ (q : hit_t), q.start + p.pre_samp + 1 ≤ q.end_ →
      ∀ r ∈ st.hits ++ [q], r.start + p.pre_samp + 1 ≤ r.end_ := by
    intro q hq r hr
    rcases List.mem_append.1 hr with hr | hr
    · exact h4 r hr
    · rw [List.mem_singleton] at hr
      subst hr
      exact hq
  simp only [Arr2.get_zero, Arr2.get_one] at h2 h3
  rcases Nat.mod_two_eq_zero_or_one i with h | h
  · have h' : (i + 1) % 2 = 1 := by omega
    rw [h] at hsn hview h2
    rw [h']
    simp only [Nat.cast_zero, add_zero, zero_ne_one, if_false, Arr2.get_zero,
      Arr2.set_zero] at hsn h2 hview
    rcases hview with ⟨hidle, hs, hst, hh⟩ | ⟨hs, hst, hh⟩ |
      ⟨hact, hs, hst, r, hrc, hre, hrs, hh⟩
    · constructor
      all_goals simp only [hsn, hs, hst, hh, ht, Arr2.get_zero, Arr2.get_one, Nat.cast_one]
      · exact h1
      · intro _; omega
      · exact h3
      · exact h4
    · constructor
      all_goals simp only [hsn, hs, hst, hh, ht, Arr2.get_zero, Arr2.get_one, Nat.cast_one]
      · exact h1
      · intro hne; have := h2 hne; omega
      · exact h3
      · exact h4
    · have hb := h2 hact
      have hle := toInt32_sub_add_le st.hit_start.c0 p.pre_samp hb.1 (by omega) hp0 hp1
      constructor
      all_goals simp only [hsn, hs, hst, hh, ht, Arr2.get_zero, Arr2.get_one, Nat.cast_one]
      · exact h1
      · intro hne; exact absurd rfl hne
      · exact h3
      · exact hrec r (by rw [hrs, hre]; omega)
  · have h' : (i + 1) % 2 = 0 := by omega
    rw [h] at hsn hview h2
    rw [h']
    simp only [Nat.cast_one, if_true, Arr2.get_one, Arr2.set_one] at hsn h2 hview
    rcases hview with ⟨hidle, hs, hst, hh⟩ | ⟨hs, hst, hh⟩ |
      ⟨hact, hs, hst, r, hrc, hre, hrs, hh⟩
    · constructor
      all_goals simp only [hsn, hs, hst, hh, ht, Arr2.get_zero, Arr2.get_one, Nat.cast_zero,
        add_zero]
      · omega
      · exact h2
      · intro _; omega
      · exact h4
    · constructor
      all_goals simp only [hsn, hs, hst, hh, ht, Arr2.get_zero, Arr2.get_one, Nat.cast_zero,
        add_zero]
      · omega
      · exact h2
      · intro hne; have := h3 hne; omega
      · exact h4
    · have hb := h3 hact
      have hle := toInt32_sub_add_le st.hit_start.c1 p.pre_samp hb.1 (by omega) hp0 hp1
      constructor
      all_goals simp only [hsn, hs, hst, hh, ht, Arr2.get_zero, Arr2.get_one, Nat.cast_zero,
        add_zero]
      · omega
      · exact h2
      · intro hne; exact absurd rfl hne
      · exact hrec r (by rw [hrs, hre]; omega)

/-- The `for` loop preserves the length invariant when it ends with the sample
counter below `2 ^ 31` and at most `MAX_HITS` records. -/
theorem forLoop_posLength (p : Params) (hp0 : -2147483648 ≤ p.pre_samp)
    (hp1 : p.pre_samp < 2147483648) : ∀ (arr : List Nat) (i : Nat) (st : State),
    PosLength p.pre_samp (i % 2) st →
    (forLoop p arr i st).sample_number < 2147483648 →
    (forLoop p arr i st).hit_number ≤ MAX_HITS →
    PosLength p.pre_samp ((i + arr.length) % 2) (forLoop p arr i st)
  | [], i, st => by
    intro hI _ _
    simpa [forLoop] using hI
  | raw :: rest, i, st => by
    intro hI hlt hcap
    have hbm := body_mono p st i raw
    simp only [forLoop] at hlt hcap ⊢
    rcases hb : body p st i raw with ⟨st1, _ | _⟩
    · rw [hb] at hlt hcap hbm
      simp only at hlt hcap hbm ⊢
      have hm := forLoop_mono p rest (i + 1) st1
      have hI1 := body_posLength p hp0 hp1 st i raw hI (by omega) (by rw [hb])
      rw [hb] at hI1
      have hfin := forLoop_posLength p hp0 hp1 rest (i + 1) st1 hI1 hlt hcap
      have hlen : i + (raw :: rest).length = i + 1 + rest.length := by
        simp only [List.length_cons]; omega
      rw [hlen]
      exact hfin
    · rw [hb] at hcap hbm
      simp only at hcap hbm
      have := hbm.2.2 trivial
      omega

/-- The `while` loop with an even block size preserves the length invariant
when it ends with the sample counter below `2 ^ 31` and at most `MAX_HITS`
records. -/
theorem whileLoop_posLength (p : Params) (hp0 : -2147483648 ≤ p.pre_samp)
    (hp1 : p.pre_samp < 2147483648) (hB : p.samples_to_read % 2 = 0) :
    ∀ (fuel : Nat) (st : State) (inp : List Nat) (fin : State),
    whileLoop p fuel st inp = some fin → PosLength p.pre_samp 0 st →
    fin.sample_number < 2147483648 → fin.hit_number ≤ MAX_HITS →
    PosLength p.pre_samp 0 fin
  | 0, _, _, _ => by simp [whileLoop]
  | fuel + 1, st, inp, fin => by
    intro h hI hlt hcap
    simp only [whileLoop] at h
    rcases hr : readBlock p.samples_to_read inp with _ | ⟨arr, rest⟩
    · rw [hr] at h
      simp only [Option.some.injEq] at h
      rw [← h]
      exact hI
    · rw [hr] at h
      simp only at h
      have hm := whileLoop_mono p fuel _ rest fin h
      have hlen := readBlock_length _ _ _ _ hr
      have h1 := forLoop_posLength p hp0 hp1 arr 0 st (by simpa using hI)
        (by omega) (by omega)
      have hph : (0 + arr.length) % 2 = 0 := by rw [hlen]; omega
      rw [hph] at h1
      exact whileLoop_posLength p hp0 hp1 hB fuel _ rest fin h h1 hlt hcap

theorem posLength_init (pre : Int) : PosLength pre 0 State.init := by
  constructor <;> simp [State.init, Arr2.get]

/-- With an even block size, a pre-trigger count in the `int` range, at most
`MAX_HITS` records and a final sample counter below `2 ^ 31`, every record ends
after the sample that opened its hit: `end ≥ start + pre_samp + 1`. -/
theorem hit_length_within_capacity (inp : List Nat) (c0 c1 sth eth : Int) (B : Nat)
    (pre : Int) (fin : State) (hB : B % 2 = 0) (hp0 : -2147483648 ≤ pre)
    (hp1 : pre < 2147483648) (hrun : process inp c0 c1 sth eth B pre = some fin)
    (hcap : fin.hit_number ≤ MAX_HITS) (hidx : fin.sample_number < 2147483648) :
    ∀ r ∈ fin.hits, r.end_ ≥ r.start + pre + 1 :=
  (whileLoop_posLength ⟨c0, c1, sth, eth, B, pre⟩ hp0 hp1 hB _ _ _ fin hrun
    (posLength_init pre) hidx hcap).lengths

/-- With an even block size, a pre-trigger count between `0` and `2 ^ 31`, at
most `MAX_HITS` records and a final sample counter below `2 ^ 31`, every record
ends before `start + pre_samp` of every later record of its channel. -/
theorem separation_within_int_range (inp : List Nat) (c0 c1 sth eth : Int) (B : Nat)
    (pre : Int) (fin : State) (hB : B % 2 = 0) (hp0 : 0 ≤ pre) (hp1 : pre ≤ 2147483648)
    (hrun : process inp c0 c1 sth eth B pre = some fin)
    (hcap : fin.hit_number ≤ MAX_HITS) (hidx : fin.sample_number < 2147483648) :
    fin.hits.Pairwise (fun a b => a.channel = b.channel → a.end_ < b.start + pre) :=
  (whileLoop_ordered ⟨c0, c1, sth, eth, B, pre⟩ hp0 hp1 hB _ _ _ fin hrun
    (ordered_init pre) hidx hcap).sorted

end HitProc
